import Mathlib

/-!
Verification of `src/rational.h`.

A shallow embedding of the C++ class `Rational` (two `int` fields kept in lowest terms)
and machine-checked statements about its constructor, arithmetic, comparison,
inversion, negation, compound assignment and stream input and output.

Modelling conventions:

* `int` is the 32-bit two's complement type.  A value of type `int` is a mathematical
  integer in `[-2^31, 2^31 - 1]` (`InInt32`).  Every `int` operation of the source that can
  leave that range is followed by `wrap32`, the reduction modulo `2^32` into the range
  (what two's complement hardware computes).
* `std::int64_t` is treated the same way with `wrap64`.
* `std::abs (int)` is `x < 0 ? -x : x` at `int` width, so `std::abs (INT_MIN) = INT_MIN`.
* `std::gcd (m, n)` is the mathematical gcd of the absolute values (the library computes
  them in the unsigned type), converted back to `int`; `2^31` converts to `INT_MIN`.
* `/` on `int` is truncating division (`Int.tdiv`).  The only divisor the class ever uses
  is the result of `std::gcd` on a nonzero denominator, which is never `0` and never `-1`
  (`Rational.Normalize_divisor`), so the quotient is always representable.
* A C++ function that may throw returns `Except Exception _`.
-/

/-- Smallest value of the C++ type `int`. -/
def INT_MIN : Int := -2147483648

/-- Largest value of the C++ type `int`. -/
def INT_MAX : Int := 2147483647

/-- Membership in the value range of the 32-bit signed type `int`. -/
def InInt32 (x : Int) : Prop := -2147483648 ≤ x ∧ x ≤ 2147483647

instance (x : Int) : Decidable (InInt32 x) := by
  unfold InInt32; infer_instance

/-- Two's complement reduction of a mathematical integer to the 32-bit type `int`. -/
def wrap32 (x : Int) : Int := (x + 2147483648) % 4294967296 - 2147483648

/-- Two's complement reduction of a mathematical integer to `std::int64_t`. -/
def wrap64 (x : Int) : Int :=
  (x + 9223372036854775808) % 18446744073709551616 - 9223372036854775808

/-- Unary minus on `int`. -/
def i32_neg (a : Int) : Int := wrap32 (-a)

/-- Binary `+` on `int`. -/
def i32_add (a b : Int) : Int := wrap32 (a + b)

/-- Binary `-` on `int`. -/
def i32_sub (a b : Int) : Int := wrap32 (a - b)

/-- Binary `*` on `int`. -/
def i32_mul (a b : Int) : Int := wrap32 (a * b)

/-- Binary `/` on `int`: truncation towards zero. -/
def i32_div (a b : Int) : Int := Int.tdiv a b

/-- Binary `*` on `std::int64_t`. -/
def i64_mul (a b : Int) : Int := wrap64 (a * b)

/-- The function `std::abs` on `int`. -/
def std_abs (x : Int) : Int := if x < 0 then i32_neg x else x

/-- The function `std::gcd` on two `int` arguments, with result type `int`. -/
def std_gcd (m n : Int) : Int := wrap32 (Int.gcd m n)

/-- The exceptions thrown by the class. -/
inductive Exception where
  | invalid_argument
  | logic_error
  | domain_error
deriving DecidableEq, Repr

/-- Equality of results of a throwing function is decidable. -/
instance instDecidableEqExcept {ε α : Type} [DecidableEq ε] [DecidableEq α] :
    DecidableEq (Except ε α)
  | .ok a, .ok b =>
    if h : a = b then isTrue (by rw [h]) else isFalse (fun h2 => h (Except.ok.inj h2))
  | .error a, .error b =>
    if h : a = b then isTrue (by rw [h]) else isFalse (fun h2 => h (Except.error.inj h2))
  | .ok _, .error _ => isFalse (fun h => Except.noConfusion h)
  | .error _, .ok _ => isFalse (fun h => Except.noConfusion h)

/-- The class `Rational`: its two private `int` data members. -/
structure Rational where
  numerator_ : Int
  denominator_ : Int
deriving DecidableEq, Repr

namespace Rational

/-- The private member `Normalize` (rational.h, lines 120-129). -/
def Normalize (r : Rational) : Rational :=
  let r1 : Rational :=
    if r.denominator_ < 0 then ⟨i32_neg r.numerator_, i32_neg r.denominator_⟩ else r
  let g := std_gcd (std_abs r1.numerator_) r1.denominator_
  ⟨i32_div r1.numerator_ g, i32_div r1.denominator_ g⟩

/-- The default constructor `Rational()` (line 12). -/
def ctor0 : Rational := ⟨0, 1⟩

/-- The converting constructor `Rational(int numerator)` (line 13). -/
def ctor1 (numerator : Int) : Rational := ⟨numerator, 1⟩

/-- The constructor `Rational(int numerator, int denominator)` (lines 14-19). -/
def ctor (numerator denominator : Int) : Except Exception Rational :=
  if denominator = 0 then .error .invalid_argument
  else .ok (Normalize ⟨numerator, denominator⟩)

/-- The accessor `GetNumerator`. -/
def GetNumerator (r : Rational) : Int := r.numerator_

/-- The accessor `GetDenominator`. -/
def GetDenominator (r : Rational) : Int := r.denominator_

/-- The friend `operator+` (lines 40-43). -/
def add (lhs rhs : Rational) : Except Exception Rational :=
  ctor (i32_add (i32_mul lhs.numerator_ rhs.denominator_)
                (i32_mul rhs.numerator_ lhs.denominator_))
       (i32_mul lhs.denominator_ rhs.denominator_)

/-- The friend binary `operator-` (lines 44-47). -/
def sub (lhs rhs : Rational) : Except Exception Rational :=
  ctor (i32_sub (i32_mul lhs.numerator_ rhs.denominator_)
                (i32_mul rhs.numerator_ lhs.denominator_))
       (i32_mul lhs.denominator_ rhs.denominator_)

/-- The friend `operator*` (lines 48-51). -/
def mul (lhs rhs : Rational) : Except Exception Rational :=
  ctor (i32_mul lhs.numerator_ rhs.numerator_)
       (i32_mul lhs.denominator_ rhs.denominator_)

/-- The friend `operator/` (lines 52-58). -/
def div (lhs rhs : Rational) : Except Exception Rational :=
  if rhs.numerator_ = 0 then .error .domain_error
  else ctor (i32_mul lhs.numerator_ rhs.denominator_)
            (i32_mul lhs.denominator_ rhs.numerator_)

/-- The friend `operator==` (lines 79-81): field-wise comparison. -/
def eq (lhs rhs : Rational) : Bool :=
  lhs.numerator_ == rhs.numerator_ && lhs.denominator_ == rhs.denominator_

/-- The friend `operator<=>` (lines 82-86): both cross products are formed in
`std::int64_t` and compared. -/
def cmp3 (lhs rhs : Rational) : Ordering :=
  compare (i64_mul lhs.numerator_ rhs.denominator_) (i64_mul rhs.numerator_ lhs.denominator_)

/-- The expression `lhs < rhs`, which C++20 rewrites to `(lhs <=> rhs) < 0`. -/
def lt (lhs rhs : Rational) : Bool := cmp3 lhs rhs == Ordering.lt

/-- The expression `lhs > rhs`, which C++20 rewrites to `(lhs <=> rhs) > 0`. -/
def gt (lhs rhs : Rational) : Bool := cmp3 lhs rhs == Ordering.gt

/-- Canonical form of a stored value: both fields are `int` values, the denominator is
positive and `gcd(|numerator|, denominator) = 1`. -/
def Canonical (r : Rational) : Prop :=
  InInt32 r.numerator_ ∧ InInt32 r.denominator_ ∧ 0 < r.denominator_ ∧
    Int.gcd r.numerator_ r.denominator_ = 1

instance (r : Rational) : Decidable (Canonical r) := by
  unfold Canonical; infer_instance

/-- A stored pair whose fields are `int` values and whose denominator is positive (not
necessarily in lowest terms). -/
def PosDen (r : Rational) : Prop :=
  InInt32 r.numerator_ ∧ InInt32 r.denominator_ ∧ 0 < r.denominator_

instance (r : Rational) : Decidable (PosDen r) := by
  unfold PosDen; infer_instance

/-- The exact rational number that a stored pair stands for. -/
def toRat (r : Rational) : ℚ := (r.numerator_ : ℚ) / (r.denominator_ : ℚ)

/-- The reference normalisation, following the words of the specification: with
`s` the sign of `d` and `g = gcd(|n|, |d|)`, the pair `(s * n / g, |d| / g)`. -/
def refNormalize (n d : Int) : Rational :=
  ⟨Int.sign d * n / (Int.gcd |n| |d| : Int), |d| / (Int.gcd |n| |d| : Int)⟩

/-- The pairs `(n, d)` on which the sign move of `Normalize` (lines 122-125) is exact:
either the denominator is not negative, or neither negation overflows, or the pair is
`(0, INT_MIN)` or `(INT_MIN, INT_MIN)`, which the following division repairs. -/
def SignMoveExact (n d : Int) : Prop :=
  0 ≤ d ∨ (n ≠ INT_MIN ∧ d ≠ INT_MIN) ∨ (n = INT_MIN ∧ d = INT_MIN) ∨ n = 0

instance (n d : Int) : Decidable (SignMoveExact n d) := by
  unfold SignMoveExact; infer_instance

/-- The member `Inv` (lines 28-33). -/
def Inv (self : Rational) : Except Exception Rational :=
  if self.numerator_ = 0 then .error .logic_error
  else ctor self.denominator_ self.numerator_

/-- The member unary `operator+` (line 36): a copy. -/
def pos (self : Rational) : Rational := self

/-- The member unary `operator-` (line 37): the negation is formed at `int` width and
handed to the two-argument constructor. -/
def neg (self : Rational) : Except Exception Rational :=
  ctor (i32_neg self.numerator_) self.denominator_

/-- What a compound assignment leaves behind: the value of `*this` afterwards, and the
exception that left the member function, if any. -/
structure Outcome where
  self : Rational
  thrown : Option Exception
deriving DecidableEq, Repr

/-- The statement `*this = v; return *this;` where evaluating `v` may throw: the
assignment happens only if the right-hand side returned a value. -/
def assign (self : Rational) (v : Except Exception Rational) : Outcome :=
  match v with
  | .ok x => ⟨x, none⟩
  | .error e => ⟨self, some e⟩

/-- The member `operator+=` (lines 61-64). -/
def add_assign (self other : Rational) : Outcome := assign self (add self other)

/-- The member `operator-=` (lines 65-68). -/
def sub_assign (self other : Rational) : Outcome := assign self (sub self other)

/-- The member `operator*=` (lines 69-72). -/
def mul_assign (self other : Rational) : Outcome := assign self (mul self other)

/-- The member `operator/=` (lines 73-76). -/
def div_assign (self other : Rational) : Outcome := assign self (div self other)

end Rational

/-! Streams.

`std::ostream` is modelled by the list of characters written so far, `std::istream` by
the characters not yet read together with `eofbit` and `failbit` (a string stream never
sets `badbit`, and the exception mask is the default one, so `setstate` never throws).
Formatting flags and locale are the defaults: decimal, `skipws`, the classic locale. -/

/-- The classic-locale `isspace`. -/
def isSpace (c : Char) : Bool :=
  c = ' ' || c = '\t' || c = '\n' || c = '\x0b' || c = '\x0c' || c = '\r'

/-- The text written by `os << n` for an `int`: a minus sign for negative values, then
the decimal digits of the magnitude. -/
def intText (n : Int) : List Char :=
  if n < 0 then '-' :: Nat.toDigits 10 n.natAbs else Nat.toDigits 10 n.natAbs

/-- The state of a `std::istream` over a string. -/
structure IStream where
  buf : List Char
  eofbit : Bool
  failbit : Bool
deriving DecidableEq, Repr

/-- The member `good()`. -/
def IStream.good (s : IStream) : Bool := !s.eofbit && !s.failbit

/-- A fresh input stream over a text. -/
def IStream.ofText (text : List Char) : IStream := ⟨text, false, false⟩

/-- Drop leading white space. -/
def skipSpace : List Char → List Char
  | [] => []
  | c :: cs => if isSpace c then skipSpace cs else c :: cs

/-- The constructor of `istream::sentry`: on a stream that is not good it sets `failbit`;
otherwise, unless `noskipws`, it skips white space and fails with `eofbit | failbit` when
nothing is left.  Returns the stream and whether the sentry is ok. -/
def sentry (s : IStream) (noskipws : Bool) : IStream × Bool :=
  if s.good then
    if noskipws then (s, true)
    else
      match skipSpace s.buf with
      | [] => (⟨[], true, true⟩, false)
      | c :: cs => (⟨c :: cs, false, false⟩, true)
  else (⟨s.buf, s.eofbit, true⟩, false)

/-- The value of a decimal digit character. -/
def digitVal (c : Char) : Nat := c.toNat - 48

/-- Accumulate the leading decimal digits of the buffer. -/
def readDigits : List Char → Nat → Nat × List Char
  | [], acc => (acc, [])
  | c :: cs, acc =>
    if c.isDigit then readDigits cs (acc * 10 + digitVal c) else (acc, c :: cs)

/-- The buffer after an optional sign character. -/
def dropSign : List Char → List Char
  | [] => []
  | c :: cs => if c = '-' ∨ c = '+' then cs else c :: cs

/-- The extraction `is >> n` for an `int` variable whose current value is `old`: after
the sentry, an optional sign and decimal digits.  Without digits the variable becomes `0`
and `failbit` is set; a value outside the `int` range sets `failbit` and stores the
nearest bound; reaching the end of the text sets `eofbit`. -/
def extractInt (s : IStream) (old : Int) : IStream × Int :=
  match sentry s false with
  | (s1, false) => (s1, old)
  | (s1, true) =>
    match dropSign s1.buf with
    | [] => (⟨[], true, true⟩, 0)
    | c :: cs =>
      if c.isDigit then
        let res := readDigits (c :: cs) 0
        let value : Int := if s1.buf.head? = some '-' then -(res.1 : Int) else (res.1 : Int)
        if value < INT_MIN then (⟨res.2, res.2.isEmpty, true⟩, INT_MIN)
        else if INT_MAX < value then (⟨res.2, res.2.isEmpty, true⟩, INT_MAX)
        else (⟨res.2, res.2.isEmpty, false⟩, value)
      else (⟨c :: cs, false, true⟩, 0)

/-- The extraction `is >> c` for a `char` variable whose current value is `old`. -/
def extractChar (s : IStream) (old : Char) : IStream × Char :=
  match sentry s false with
  | (s1, false) => (s1, old)
  | (s1, true) =>
    match s1.buf with
    | [] => (⟨[], true, true⟩, old)
    | c :: cs => (⟨cs, false, false⟩, c)

/-- The manipulator `std::ws`. -/
def ws (s : IStream) : IStream :=
  match sentry s true with
  | (s1, false) => s1
  | (s1, true) => ⟨skipSpace s1.buf, (skipSpace s1.buf).isEmpty, false⟩

/-- The member `peek()`: the next character, or nothing at the end of the text or on a
stream that is not good. -/
def peek (s : IStream) : IStream × Option Char :=
  match sentry s true with
  | (s1, false) => (s1, none)
  | (s1, true) =>
    match s1.buf with
    | [] => (⟨[], true, s1.failbit⟩, none)
    | c :: _ => (s1, some c)

namespace Rational

/-- The friend `operator<<` (lines 89-96), appending to the text written so far. -/
def ostream_insert (os : List Char) (r : Rational) : List Char :=
  if r.denominator_ = 1 then os ++ intText r.numerator_
  else os ++ intText r.numerator_ ++ " / ".toList ++ intText r.denominator_

/-- The text of a value: `operator<<` on an empty stream. -/
def format (r : Rational) : List Char := ostream_insert [] r

/-- The friend `operator>>` (lines 98-114): the stream afterwards and the value of the
destination `r` afterwards. -/
def istream_extract (s : IStream) (r : Rational) : Except Exception (IStream × Rational) :=
  let e1 := extractInt s 0
  if e1.1.failbit then .ok (e1.1, r)
  else
    let p := peek (ws e1.1)
    if p.2 = some '/' then
      let e2 := extractInt (extractChar p.1 (Char.ofNat 0)).1 1
      if e2.1.failbit ∨ e2.2 = 0 then .ok (⟨e2.1.buf, e2.1.eofbit, true⟩, r)
      else (ctor e1.2 e2.2).map (fun v => (e2.1, v))
    else (ctor e1.2 1).map (fun v => (p.1, v))

/-- Parsing a text into a destination that currently holds `r`. -/
def parse (text : List Char) (r : Rational) : Except Exception (IStream × Rational) :=
  istream_extract (IStream.ofText text) r

end Rational

namespace Rational

/-! ## Machine arithmetic -/

theorem wrap32_of_inRange {x : Int} (h : InInt32 x) : wrap32 x = x := by
  unfold InInt32 at h
  unfold wrap32
  omega

theorem inRange_wrap32 (x : Int) : InInt32 (wrap32 x) := by
  unfold InInt32 wrap32
  omega

theorem natAbs_std_abs {x : Int} (h : InInt32 x) : (std_abs x).natAbs = x.natAbs := by
  unfold InInt32 at h
  unfold std_abs i32_neg wrap32
  split <;> omega

theorem natAbs_i32_neg {x : Int} (h : InInt32 x) : (i32_neg x).natAbs = x.natAbs := by
  unfold InInt32 at h
  unfold i32_neg wrap32
  omega

theorem gcd_std_abs {x : Int} (h : InInt32 x) (y : Int) :
    Int.gcd (std_abs x) y = Int.gcd x y := by
  simp only [Int.gcd, natAbs_std_abs h]

theorem gcd_i32_neg {x : Int} (h : InInt32 x) (y : Int) :
    Int.gcd (i32_neg x) y = Int.gcd x y := by
  simp only [Int.gcd, natAbs_i32_neg h]

theorem gcd_bounds (n : Int) {d : Int} (hd : 0 < d) :
    0 < (Int.gcd n d : Int) ∧ (Int.gcd n d : Int) ≤ d := by
  have h1 : 0 < Int.gcd n d := Int.gcd_pos_of_ne_zero_right n (ne_of_gt hd)
  have h2 : Int.gcd n d ≤ d.natAbs := Nat.gcd_le_right _ (by omega)
  omega

/-! ## The constructor, case by case -/

theorem Normalize_of_pos {n d : Int} (hn : InInt32 n) (hd : InInt32 d) (hpos : 0 < d) :
    Normalize ⟨n, d⟩ = ⟨n / (Int.gcd n d : Int), d / (Int.gcd n d : Int)⟩ := by
  have hg := gcd_bounds n hpos
  have hw : wrap32 (Int.gcd n d) = Int.gcd n d :=
    wrap32_of_inRange (by unfold InInt32 at *; omega)
  simp only [Normalize, not_lt.mpr hpos.le, if_false, std_gcd, gcd_std_abs hn, hw, i32_div]
  rw [Int.tdiv_eq_ediv_of_dvd Int.gcd_dvd_left, Int.tdiv_eq_ediv_of_dvd Int.gcd_dvd_right]

theorem canonical_div_gcd {n d : Int} (hn : InInt32 n) (hd : InInt32 d) (hpos : 0 < d) :
    Canonical ⟨n / (Int.gcd n d : Int), d / (Int.gcd n d : Int)⟩ := by
  have hg := gcd_bounds n hpos
  obtain ⟨q, hq⟩ := (Int.gcd_dvd_left : (Int.gcd n d : Int) ∣ n)
  obtain ⟨p, hp⟩ := (Int.gcd_dvd_right : (Int.gcd n d : Int) ∣ d)
  have hcop : Int.gcd (n / (Int.gcd n d : Int)) (d / (Int.gcd n d : Int)) = 1 :=
    Int.gcd_div_gcd_div_gcd (Int.gcd_pos_of_ne_zero_right n (ne_of_gt hpos))
  have hqe : n / (Int.gcd n d : Int) = q :=
    Int.ediv_eq_of_eq_mul_right (ne_of_gt hg.1) hq
  have hpe : d / (Int.gcd n d : Int) = p :=
    Int.ediv_eq_of_eq_mul_right (ne_of_gt hg.1) hp
  rw [hqe, hpe] at hcop
  rw [hqe, hpe]
  unfold InInt32 at hn hd
  have hp0 : 0 < p := by
    by_contra hcon
    have : (Int.gcd n d : Int) * p ≤ 0 :=
      Int.mul_nonpos_of_nonneg_of_nonpos hg.1.le (not_lt.mp hcon)
    omega
  have hple : p ≤ d := by nlinarith
  have hq1 : -2147483648 ≤ q := by
    by_contra hcon
    have : (Int.gcd n d : Int) * q ≤ 1 * q := by
      apply Int.mul_le_mul_of_nonpos_right <;> omega
    omega
  have hq2 : q ≤ 2147483647 := by
    by_contra hcon
    have : 1 * q ≤ (Int.gcd n d : Int) * q := by
      apply Int.mul_le_mul_of_nonneg_right <;> omega
    omega
  have hp1 : -2147483648 ≤ p := by omega
  have hp2 : p ≤ 2147483647 := by omega
  exact ⟨⟨hq1, hq2⟩, ⟨hp1, hp2⟩, hp0, hcop⟩

theorem ctor_of_pos {n d : Int} (hn : InInt32 n) (hd : InInt32 d) (hpos : 0 < d) :
    ctor n d = .ok ⟨n / (Int.gcd n d : Int), d / (Int.gcd n d : Int)⟩ := by
  unfold ctor
  rw [if_neg (ne_of_gt hpos), Normalize_of_pos hn hd hpos]

theorem ctor_of_neg {n d : Int} (hn : InInt32 n) (hd : InInt32 d) (hneg : d < 0)
    (hmin : d ≠ INT_MIN) :
    ctor n d = .ok ⟨i32_neg n / (Int.gcd n d : Int), (-d) / (Int.gcd n d : Int)⟩ := by
  have hd2 : i32_neg d = -d := by
    unfold InInt32 at hd
    unfold INT_MIN at hmin
    unfold i32_neg wrap32
    omega
  have hpos : 0 < -d := by omega
  have hdr : InInt32 (-d) := by
    unfold InInt32 at *
    unfold INT_MIN at hmin
    omega
  have hstep : Normalize ⟨n, d⟩ = Normalize ⟨i32_neg n, -d⟩ := by
    simp only [Normalize, hneg, if_true, hd2, not_lt.mpr hpos.le, if_false]
  unfold ctor
  rw [if_neg (ne_of_lt hneg), hstep, Normalize_of_pos (show InInt32 (i32_neg n) from inRange_wrap32 _) hdr hpos,
    gcd_i32_neg hn, Int.gcd_neg]

theorem ctor_of_min {n : Int} (hn : InInt32 n) (h0 : n ≠ 0) (hm : n ≠ INT_MIN) :
    ctor n INT_MIN
      = .ok ⟨(-n) / (Int.gcd n INT_MIN : Int), INT_MIN / (Int.gcd n INT_MIN : Int)⟩ := by
  have hn2 : i32_neg n = -n := by
    unfold InInt32 at hn
    unfold INT_MIN at hm
    unfold i32_neg wrap32
    omega
  have hnr : InInt32 (-n) := by
    unfold InInt32 at *
    unfold INT_MIN at hm
    omega
  have hgpos : 0 < Int.gcd n INT_MIN := Int.gcd_pos_of_ne_zero_left _ h0
  have hgle : Int.gcd n INT_MIN ≤ n.natAbs := Nat.gcd_le_left _ (by omega)
  have hw : wrap32 (Int.gcd n INT_MIN) = Int.gcd n INT_MIN := by
    apply wrap32_of_inRange
    unfold InInt32 at *
    unfold INT_MIN at hm
    omega
  have hmin : i32_neg INT_MIN = INT_MIN := by decide
  have hlt : INT_MIN < 0 := by decide
  have hne : INT_MIN ≠ 0 := by decide
  unfold ctor
  rw [if_neg hne]
  simp only [Normalize, hlt, if_true, hmin, hn2, std_gcd, gcd_std_abs hnr, Int.neg_gcd, hw,
    i32_div]
  rw [Int.tdiv_eq_ediv_of_dvd (Int.dvd_neg.mpr Int.gcd_dvd_left),
    Int.tdiv_eq_ediv_of_dvd Int.gcd_dvd_right]

/-- The divisor used by `Normalize` is never `0` and never `-1`, so the two `int`
divisions of lines 127-128 cannot trap or overflow. -/
theorem Normalize_divisor (n d : Int) (hn : InInt32 n) (hd : InInt32 d) (h0 : d ≠ 0) :
    std_gcd (std_abs n) d ≠ 0 ∧ std_gcd (std_abs n) d ≠ -1 := by
  have hpos : 0 < Int.gcd n d := Int.gcd_pos_of_ne_zero_right n h0
  have hle : Int.gcd n d ≤ d.natAbs := Nat.gcd_le_right _ (by omega)
  unfold InInt32 at hd
  unfold std_gcd
  rw [gcd_std_abs hn]
  unfold wrap32
  omega

/-- Away from `d = 0` and `d = INT_MIN` the constructor returns a canonical value. -/
theorem ctor_canonical {n d : Int} (hn : InInt32 n) (hd : InInt32 d) (h0 : d ≠ 0)
    (hmin : d ≠ INT_MIN) : ∃ r, ctor n d = .ok r ∧ Canonical r := by
  rcases lt_or_gt_of_ne h0 with hneg | hpos
  · refine ⟨_, ctor_of_neg hn hd hneg hmin, ?_⟩
    have hdr : InInt32 (-d) := by
      unfold InInt32 at *
      unfold INT_MIN at hmin
      omega
    have hc := canonical_div_gcd (show InInt32 (i32_neg n) from inRange_wrap32 _) hdr
      (by omega : 0 < -d)
    rw [gcd_i32_neg hn, Int.gcd_neg] at hc
    exact hc
  · exact ⟨_, ctor_of_pos hn hd hpos, canonical_div_gcd hn hd hpos⟩

/-! ## The reference normalisation -/

theorem gcd_abs_abs (n d : Int) : Int.gcd |n| |d| = Int.gcd n d := by
  simp only [Int.gcd, Int.natAbs_abs]

theorem refNormalize_of_pos (n : Int) {d : Int} (hpos : 0 < d) :
    refNormalize n d = ⟨n / (Int.gcd n d : Int), d / (Int.gcd n d : Int)⟩ := by
  unfold refNormalize
  rw [gcd_abs_abs]
  simp only [Int.sign_eq_one_of_pos hpos, one_mul, abs_of_pos hpos]

theorem refNormalize_of_neg (n : Int) {d : Int} (hneg : d < 0) :
    refNormalize n d = ⟨(-n) / (Int.gcd n d : Int), (-d) / (Int.gcd n d : Int)⟩ := by
  unfold refNormalize
  rw [gcd_abs_abs]
  simp only [Int.sign_eq_neg_one_of_neg hneg, neg_one_mul, abs_of_neg hneg]

theorem ediv_gcd_mul (n d : Int) :
    (n / (Int.gcd n d : Int)) * d = n * (d / (Int.gcd n d : Int)) := by
  rw [mul_comm, ← Int.mul_ediv_assoc _ Int.gcd_dvd_left, mul_comm,
    Int.mul_ediv_assoc _ Int.gcd_dvd_right]

/-- The reference normalisation represents the same rational number as `n / d`. -/
theorem refNormalize_value (n : Int) {d : Int} (h0 : d ≠ 0) :
    (refNormalize n d).numerator_ * d = n * (refNormalize n d).denominator_ := by
  rcases lt_or_gt_of_ne h0 with hneg | hpos
  · rw [refNormalize_of_neg n hneg]
    have h := ediv_gcd_mul (-n) (-d)
    rw [Int.neg_gcd, Int.gcd_neg] at h
    show (-n) / (Int.gcd n d : Int) * d = n * ((-d) / (Int.gcd n d : Int))
    linarith
  · rw [refNormalize_of_pos n hpos]
    exact ediv_gcd_mul n d

/-- Where the sign move is exact the constructor computes the reference normalisation. -/
theorem ctor_of_exact {n d : Int} (hn : InInt32 n) (hd : InInt32 d) (h0 : d ≠ 0)
    (hex : SignMoveExact n d) : ctor n d = .ok (refNormalize n d) := by
  rcases lt_or_gt_of_ne h0 with hneg | hpos
  · by_cases hmin : d = INT_MIN
    · subst hmin
      have hnn : n = 0 ∨ n = INT_MIN := by
        rcases hex with h | h | h | h
        · exact absurd h (by decide)
        · exact absurd rfl h.2
        · exact Or.inr h.1
        · exact Or.inl h
      rcases hnn with h | h <;> subst h <;> decide
    · have hnm : n ≠ INT_MIN := by
        rcases hex with h | h | h | h
        · omega
        · exact h.1
        · exact absurd h.2 hmin
        · rw [h]; decide
      have hn2 : i32_neg n = -n := by
        unfold InInt32 at hn
        unfold INT_MIN at hnm
        unfold i32_neg wrap32
        omega
      rw [ctor_of_neg hn hd hneg hmin, refNormalize_of_neg n hneg, hn2]
  · rw [ctor_of_pos hn hd hpos, refNormalize_of_pos n hpos]

/-- Where the sign move is not exact the constructor returns a value that is neither the
reference normalisation nor a representation of `n / d`. -/
theorem ctor_of_inexact {n d : Int} (hn : InInt32 n) (hd : InInt32 d)
    (hex : ¬ SignMoveExact n d) :
    ∃ r, ctor n d = .ok r ∧ r ≠ refNormalize n d ∧
      r.numerator_ * d ≠ n * r.denominator_ := by
  unfold SignMoveExact at hex
  push_neg at hex
  obtain ⟨hneg, h1, h2, hn0⟩ := hex
  have hg : (0 : Int) < (Int.gcd n d : Int) :=
    Int.ofNat_pos.mpr (Int.gcd_pos_of_ne_zero_left _ hn0)
  by_cases hmin : d = INT_MIN
  · subst hmin
    have hnm : n ≠ INT_MIN := fun h => h2 h rfl
    have hden : INT_MIN / (Int.gcd n INT_MIN : Int) < 0 := Int.ediv_neg' (by decide) hg
    refine ⟨_, ctor_of_min hn hn0 hnm, ?_, ?_⟩
    · rw [refNormalize_of_neg n hneg]
      intro h
      have h3 := congrArg Rational.denominator_ h
      have h4 : 0 ≤ (-INT_MIN) / (Int.gcd n INT_MIN : Int) :=
        Int.ediv_nonneg (by decide) hg.le
      simp only at h3
      omega
    · show (-n) / (Int.gcd n INT_MIN : Int) * INT_MIN
          ≠ n * (INT_MIN / (Int.gcd n INT_MIN : Int))
      have h := ediv_gcd_mul n INT_MIN
      have hq : (-n) / (Int.gcd n INT_MIN : Int) = -(n / (Int.gcd n INT_MIN : Int)) :=
        Int.neg_ediv_of_dvd Int.gcd_dvd_left
      rw [hq]
      intro hcon
      have hz : n * (INT_MIN / (Int.gcd n INT_MIN : Int)) = 0 := by linarith
      rcases mul_eq_zero.mp hz with h5 | h5
      · exact hn0 h5
      · omega
  · have hnm : n = INT_MIN := by
      by_contra h
      exact hmin (h1 h)
    subst hnm
    have hdr : InInt32 (-d) := by
      unfold InInt32 at *
      unfold INT_MIN at hmin
      omega
    have hnum : INT_MIN / (Int.gcd INT_MIN d : Int) < 0 := Int.ediv_neg' (by decide) hg
    have hi : i32_neg INT_MIN = INT_MIN := by decide
    have hdpos : 0 < (-d) / (Int.gcd INT_MIN d : Int) := by
      have hc := (canonical_div_gcd hn hdr (by omega : 0 < -d)).2.2.1
      rw [Int.gcd_neg] at hc
      exact hc
    refine ⟨_, ctor_of_neg hn hd hneg hmin, ?_, ?_⟩
    · rw [refNormalize_of_neg _ hneg, hi]
      intro h
      have h3 := congrArg Rational.numerator_ h
      have h4 : 0 ≤ (-INT_MIN) / (Int.gcd INT_MIN d : Int) :=
        Int.ediv_nonneg (by decide) hg.le
      simp only at h3
      omega
    · rw [hi]
      show INT_MIN / (Int.gcd INT_MIN d : Int) * d
          ≠ INT_MIN * ((-d) / (Int.gcd INT_MIN d : Int))
      have hl : 0 < INT_MIN / (Int.gcd INT_MIN d : Int) * d :=
        Int.mul_pos_of_neg_of_neg hnum hneg
      have hr : INT_MIN * ((-d) / (Int.gcd INT_MIN d : Int)) < 0 :=
        Int.mul_neg_of_neg_of_pos (by decide) hdpos
      omega

/-! ## Exact values -/

/-- Two canonical values that stand for the same rational number are the same pair. -/
theorem canonical_ext {r s : Rational} (hr : Canonical r) (hs : Canonical s)
    (h : r.toRat = s.toRat) : r = s := by
  obtain ⟨_, _, hrp, hrc⟩ := hr
  obtain ⟨_, _, hsp, hsc⟩ := hs
  have h2 := Rat.div_int_inj hrp hsp hrc hsc h
  cases r
  cases s
  simp only [mk.injEq]
  exact h2

theorem refNormalize_den_pos (n : Int) {d : Int} (h0 : d ≠ 0) :
    0 < (refNormalize n d).denominator_ := by
  have hg : 0 < Int.gcd n d := Int.gcd_pos_of_ne_zero_right n h0
  have hdvd : (Int.gcd n d : Int) ∣ |d| := (dvd_abs _ _).mpr Int.gcd_dvd_right
  unfold refNormalize
  rw [gcd_abs_abs]
  exact Int.ediv_pos_of_pos_of_dvd (abs_pos.mpr h0) (Int.ofNat_nonneg _) hdvd

theorem refNormalize_toRat (n : Int) {d : Int} (h0 : d ≠ 0) :
    (refNormalize n d).toRat = (n : ℚ) / (d : ℚ) := by
  have hden : ((refNormalize n d).denominator_ : ℚ) ≠ 0 := by
    exact_mod_cast ne_of_gt (refNormalize_den_pos n h0)
  have hd : (d : ℚ) ≠ 0 := by exact_mod_cast h0
  unfold toRat
  rw [div_eq_div_iff hden hd]
  exact_mod_cast refNormalize_value n h0

/-- Where the sign move is exact, the constructor returns the reference normalisation,
which is canonical and stands for the rational number `n / d`. -/
theorem ctor_exact_spec {n d : Int} (hn : InInt32 n) (hd : InInt32 d) (h0 : d ≠ 0)
    (hex : SignMoveExact n d) :
    ctor n d = .ok (refNormalize n d) ∧ Canonical (refNormalize n d) ∧
      (refNormalize n d).toRat = (n : ℚ) / (d : ℚ) := by
  refine ⟨ctor_of_exact hn hd h0 hex, ?_, refNormalize_toRat n h0⟩
  by_cases hmin : d = INT_MIN
  · subst hmin
    have hnn : n = 0 ∨ n = INT_MIN := by
      rcases hex with h | h | h | h
      · exact absurd h (by decide)
      · exact absurd rfl h.2
      · exact Or.inr h.1
      · exact Or.inl h
    rcases hnn with h | h <;> subst h <;> decide
  · obtain ⟨r, hr, hc⟩ := ctor_canonical hn hd h0 hmin
    rw [ctor_of_exact hn hd h0 hex] at hr
    rw [Except.ok.inj hr]
    exact hc

theorem i32_mul_of_inRange {x y : Int} (h : InInt32 (x * y)) : i32_mul x y = x * y :=
  wrap32_of_inRange h

theorem inRange_ne_min_of_pos {x : Int} (h : 0 < x) : x ≠ INT_MIN := by
  unfold INT_MIN
  omega

/-- The constructor on an exact pair, packaged for the operators: the value returned is
the reference normalisation of `(N, D)`, it is canonical, it stands for the rational
number `q = N / D`, and it is the only canonical value that does. -/
theorem ctor_exact_unique {N D : Int} (hN : InInt32 N) (hD : InInt32 D) (h0 : D ≠ 0)
    (hex : SignMoveExact N D) (q : ℚ) (hq : (N : ℚ) / (D : ℚ) = q) :
    ∃ r, ctor N D = .ok r ∧ r = refNormalize N D ∧ Canonical r ∧ r.toRat = q ∧
      ∀ s, Canonical s → s.toRat = q → s = r := by
  obtain ⟨h1, h2, h3⟩ := ctor_exact_spec hN hD h0 hex
  refine ⟨_, h1, rfl, h2, h3.trans hq, fun s hs hsq => canonical_ext hs h2 ?_⟩
  rw [hsq, h3, hq]

theorem toRat_add {a b : Rational} (ha : 0 < a.denominator_) (hb : 0 < b.denominator_) :
    (((a.numerator_ * b.denominator_ + b.numerator_ * a.denominator_ : Int) : ℚ)
      / ((a.denominator_ * b.denominator_ : Int) : ℚ)) = a.toRat + b.toRat := by
  have h1 : (a.denominator_ : ℚ) ≠ 0 := by exact_mod_cast ne_of_gt ha
  have h2 : (b.denominator_ : ℚ) ≠ 0 := by exact_mod_cast ne_of_gt hb
  unfold toRat
  push_cast
  field_simp

theorem toRat_sub {a b : Rational} (ha : 0 < a.denominator_) (hb : 0 < b.denominator_) :
    (((a.numerator_ * b.denominator_ - b.numerator_ * a.denominator_ : Int) : ℚ)
      / ((a.denominator_ * b.denominator_ : Int) : ℚ)) = a.toRat - b.toRat := by
  have h1 : (a.denominator_ : ℚ) ≠ 0 := by exact_mod_cast ne_of_gt ha
  have h2 : (b.denominator_ : ℚ) ≠ 0 := by exact_mod_cast ne_of_gt hb
  unfold toRat
  push_cast
  field_simp
  ring

theorem toRat_mul {a b : Rational} (ha : 0 < a.denominator_) (hb : 0 < b.denominator_) :
    (((a.numerator_ * b.numerator_ : Int) : ℚ)
      / ((a.denominator_ * b.denominator_ : Int) : ℚ)) = a.toRat * b.toRat := by
  have h1 : (a.denominator_ : ℚ) ≠ 0 := by exact_mod_cast ne_of_gt ha
  have h2 : (b.denominator_ : ℚ) ≠ 0 := by exact_mod_cast ne_of_gt hb
  unfold toRat
  push_cast
  field_simp

theorem toRat_div {a b : Rational} (ha : 0 < a.denominator_) (hb : 0 < b.denominator_)
    (hn : b.numerator_ ≠ 0) :
    (((a.numerator_ * b.denominator_ : Int) : ℚ)
      / ((a.denominator_ * b.numerator_ : Int) : ℚ)) = a.toRat / b.toRat := by
  have h1 : (a.denominator_ : ℚ) ≠ 0 := by exact_mod_cast ne_of_gt ha
  have h2 : (b.denominator_ : ℚ) ≠ 0 := by exact_mod_cast ne_of_gt hb
  have h3 : (b.numerator_ : ℚ) ≠ 0 := by exact_mod_cast hn
  unfold toRat
  push_cast
  field_simp

/-! ## Comparison -/

/-- The product of two `int` values fits in `std::int64_t` with room to spare. -/
theorem mul_bounds64 {x y : Int} (hx : InInt32 x) (hy : InInt32 y) :
    -4611686018427387904 ≤ x * y ∧ x * y ≤ 4611686018427387904 := by
  unfold InInt32 at hx hy
  constructor
  · nlinarith [mul_nonneg (by linarith : (0 : Int) ≤ x + 2147483648)
      (by linarith : (0 : Int) ≤ 2147483648 - y),
      mul_nonneg (by linarith : (0 : Int) ≤ 2147483648 - x)
      (by linarith : (0 : Int) ≤ y + 2147483648)]
  · nlinarith [mul_nonneg (by linarith : (0 : Int) ≤ x + 2147483648)
      (by linarith : (0 : Int) ≤ y + 2147483648),
      mul_nonneg (by linarith : (0 : Int) ≤ 2147483648 - x)
      (by linarith : (0 : Int) ≤ 2147483648 - y)]

/-- The 64-bit cross product of `operator<=>` never overflows. -/
theorem i64_mul_exact {x y : Int} (hx : InInt32 x) (hy : InInt32 y) :
    i64_mul x y = x * y := by
  have h := mul_bounds64 hx hy
  unfold i64_mul wrap64
  omega

theorem ordering_beq_iff (x y : Ordering) : (x == y) = true ↔ x = y := by
  cases x <;> cases y <;> decide

theorem lt_iff_cross {a b : Rational} (h1 : InInt32 a.numerator_)
    (h2 : InInt32 a.denominator_) (h3 : InInt32 b.numerator_) (h4 : InInt32 b.denominator_) :
    lt a b = true ↔ a.numerator_ * b.denominator_ < b.numerator_ * a.denominator_ := by
  unfold lt cmp3
  rw [i64_mul_exact h1 h4, i64_mul_exact h3 h2, ordering_beq_iff, compare_lt_iff_lt]

theorem gt_iff_cross {a b : Rational} (h1 : InInt32 a.numerator_)
    (h2 : InInt32 a.denominator_) (h3 : InInt32 b.numerator_) (h4 : InInt32 b.denominator_) :
    gt a b = true ↔ b.numerator_ * a.denominator_ < a.numerator_ * b.denominator_ := by
  unfold gt cmp3
  rw [i64_mul_exact h1 h4, i64_mul_exact h3 h2, ordering_beq_iff, compare_gt_iff_gt]

theorem eq_iff_fields (a b : Rational) :
    eq a b = true ↔ (a.numerator_ = b.numerator_ ∧ a.denominator_ = b.denominator_) := by
  unfold eq
  rw [Bool.and_eq_true, beq_iff_eq, beq_iff_eq]

/-- Cross multiplication compares the rational numbers the pairs stand for. -/
theorem toRat_lt_iff {a b : Rational} (ha : 0 < a.denominator_) (hb : 0 < b.denominator_) :
    a.toRat < b.toRat ↔ a.numerator_ * b.denominator_ < b.numerator_ * a.denominator_ := by
  have h1 : (0 : ℚ) < (a.denominator_ : ℚ) := by exact_mod_cast ha
  have h2 : (0 : ℚ) < (b.denominator_ : ℚ) := by exact_mod_cast hb
  unfold toRat
  rw [div_lt_div_iff₀ h1 h2]
  exact_mod_cast Iff.rfl

theorem toRat_eq_iff {a b : Rational} (ha : 0 < a.denominator_) (hb : 0 < b.denominator_) :
    a.toRat = b.toRat ↔ a.numerator_ * b.denominator_ = b.numerator_ * a.denominator_ := by
  have h1 : (a.denominator_ : ℚ) ≠ 0 := by exact_mod_cast ne_of_gt ha
  have h2 : (b.denominator_ : ℚ) ≠ 0 := by exact_mod_cast ne_of_gt hb
  unfold toRat
  rw [div_eq_div_iff h1 h2]
  exact_mod_cast Iff.rfl

/-! ## C1, C2: the constructor -/

/-- C1 (amended). For every pair `(n, d)` of 32-bit `int` values with `d ≠ 0`, the
constructor `Rational(n, d)` returns a value whose fields are coprime
(`gcd(|numerator|, |denominator|) = 1`), and the stored denominator is `> 0` exactly when
`d ≠ INT_MIN`, or `n = 0`, or `n = INT_MIN`.  In particular for every `d ≠ 0` other than
`INT_MIN` the result is canonical: both fields are `int` values, denominator `> 0` and
gcd `1`. -/
theorem C1_ctor_canonical (n d : Int) (hn : InInt32 n) (hd : InInt32 d) (h0 : d ≠ 0) :
    ∃ r, ctor n d = .ok r ∧ Int.gcd r.numerator_ r.denominator_ = 1 ∧
      (0 < r.denominator_ ↔ (d ≠ INT_MIN ∨ n = 0 ∨ n = INT_MIN)) ∧
      (d ≠ INT_MIN → Canonical r) := by
  by_cases hmin : d = INT_MIN
  · subst hmin
    by_cases hn0 : n = 0
    · subst hn0
      exact ⟨⟨0, 1⟩, by decide, by decide, by decide, by decide⟩
    by_cases hnm : n = INT_MIN
    · subst hnm
      exact ⟨⟨1, 1⟩, by decide, by decide, by decide, by decide⟩
    refine ⟨_, ctor_of_min hn hn0 hnm, ?_, ?_, ?_⟩
    · have h := Int.gcd_div_gcd_div_gcd
        (Int.gcd_pos_of_ne_zero_left INT_MIN (Int.neg_ne_zero.mpr hn0))
      rw [Int.neg_gcd] at h
      exact h
    · have hg : (0 : Int) < (Int.gcd n INT_MIN : Int) :=
        Int.ofNat_pos.mpr (Int.gcd_pos_of_ne_zero_left _ hn0)
      have hneg : INT_MIN / (Int.gcd n INT_MIN : Int) < 0 :=
        Int.ediv_neg' (by decide) hg
      constructor
      · intro h
        exact absurd h (not_lt.mpr hneg.le)
      · intro h
        rcases h with h | h | h
        · exact absurd rfl h
        · exact absurd h hn0
        · exact absurd h hnm
    · intro h
      exact absurd rfl h
  · obtain ⟨r, hr, hc⟩ := ctor_canonical hn hd h0 hmin
    exact ⟨r, hr, hc.2.2.2, ⟨fun _ => Or.inl hmin, fun _ => hc.2.2.1⟩, fun _ => hc⟩

/-- Witness for C1 (amended) at `Rational(6, -4)`. -/
theorem C1_ctor_canonical_witness :
    ∃ r, ctor 6 (-4) = .ok r ∧ Int.gcd r.numerator_ r.denominator_ = 1 ∧
      (0 < r.denominator_ ↔ ((-4 : Int) ≠ INT_MIN ∨ (6 : Int) = 0 ∨ (6 : Int) = INT_MIN)) ∧
      ((-4 : Int) ≠ INT_MIN → Canonical r) :=
  C1_ctor_canonical 6 (-4) (by decide) (by decide) (by decide)

/-- C1 as stated fails: `Rational(1, INT_MIN)` stores `-1 / INT_MIN`, whose denominator
is negative, because `-INT_MIN` is `INT_MIN` at 32-bit width. -/
theorem C1_counterexample :
    ctor 1 INT_MIN = .ok ⟨-1, INT_MIN⟩ ∧
    ¬ (∀ n d : Int, InInt32 n → InInt32 d → d ≠ 0 →
        ∃ r, ctor n d = .ok r ∧ 0 < r.denominator_ ∧
          Int.gcd r.numerator_ r.denominator_ = 1) := by
  refine ⟨by decide, fun h => ?_⟩
  obtain ⟨r, hr, hpos, _⟩ := h 1 INT_MIN (by decide) (by decide) (by decide)
  have he : ctor 1 INT_MIN = .ok ⟨-1, INT_MIN⟩ := by decide
  rw [he] at hr
  have hr2 : r = ⟨-1, INT_MIN⟩ := (Except.ok.inj hr).symm
  rw [hr2] at hpos
  exact absurd hpos (by decide)

/-- C2. The constructor `Rational(n, d)` throws `std::invalid_argument` if and only if
`d == 0`; it throws nothing else; and it returns a value if and only if `d != 0`. -/
theorem C2_ctor_throws_iff_zero (n d : Int) :
    (ctor n d = .error .invalid_argument ↔ d = 0) ∧
    (∀ e, ctor n d = .error e → e = .invalid_argument) ∧
    ((∃ r, ctor n d = .ok r) ↔ d ≠ 0) := by
  unfold ctor
  by_cases h : d = 0
  · simp [h]
  · simp [h]

/-! ## C3: the constructor against the reference normalisation -/

/-- C3 (amended). For every pair `(n, d)` of 32-bit `int` values with `d ≠ 0`, the
constructor `Rational(n, d)` returns the reference normalisation
`(s * n / g, |d| / g)`, `s = sign d`, `g = gcd(|n|, |d|)`, exactly when the sign move is
exact (`d > 0`, or `n ≠ INT_MIN` and `d ≠ INT_MIN`, or `n = d = INT_MIN`, or `n = 0`), and
exactly in those cases the stored pair satisfies `numerator * d = n * denominator`;
`Rational(0, d)` is `0/1` for every `d ≠ 0`. -/
theorem C3_ctor_reference (n d : Int) (hn : InInt32 n) (hd : InInt32 d) (h0 : d ≠ 0) :
    (ctor n d = .ok (refNormalize n d) ↔ SignMoveExact n d) ∧
    (∃ r, ctor n d = .ok r ∧
      (r.numerator_ * d = n * r.denominator_ ↔ SignMoveExact n d)) ∧
    ctor 0 d = .ok ⟨0, 1⟩ := by
  have hzero : ctor 0 d = .ok ⟨0, 1⟩ := by
    rw [ctor_of_exact (by decide) hd h0 (Or.inr (Or.inr (Or.inr rfl)))]
    have habs : |d| ≠ 0 := abs_ne_zero.mpr h0
    simp [refNormalize, Int.ediv_self habs]
  refine ⟨?_, ?_, hzero⟩
  · constructor
    · intro h
      by_contra hex
      obtain ⟨r, hr, hne, _⟩ := ctor_of_inexact hn hd hex
      rw [h] at hr
      exact hne (Except.ok.inj hr).symm
    · exact ctor_of_exact hn hd h0
  · by_cases hex : SignMoveExact n d
    · exact ⟨_, ctor_of_exact hn hd h0 hex, fun _ => hex, fun _ => refNormalize_value n h0⟩
    · obtain ⟨r, hr, _, hv⟩ := ctor_of_inexact hn hd hex
      exact ⟨r, hr, fun h => absurd h hv, fun h => absurd h hex⟩

/-- Witness for C3 (amended) at `Rational(4, -8)`. -/
theorem C3_ctor_reference_witness :
    (ctor 4 (-8) = .ok (refNormalize 4 (-8)) ↔ SignMoveExact 4 (-8)) ∧
    (∃ r, ctor 4 (-8) = .ok r ∧
      (r.numerator_ * (-8) = 4 * r.denominator_ ↔ SignMoveExact 4 (-8))) ∧
    ctor 0 (-8) = .ok ⟨0, 1⟩ :=
  C3_ctor_reference 4 (-8) (by decide) (by decide) (by decide)

/-- C3 as stated fails: `Rational(INT_MIN, -1)` stores `INT_MIN / 1`, while the reference
normalisation is `2^31 / 1`, and `INT_MIN * (-1) ≠ INT_MIN * 1`. -/
theorem C3_counterexample :
    ctor INT_MIN (-1) = .ok ⟨INT_MIN, 1⟩ ∧
    refNormalize INT_MIN (-1) = ⟨2147483648, 1⟩ ∧
    (⟨INT_MIN, 1⟩ : Rational).numerator_ * (-1) ≠ INT_MIN * (⟨INT_MIN, 1⟩ : Rational).denominator_ ∧
    ¬ (∀ n d : Int, InInt32 n → InInt32 d → d ≠ 0 → ctor n d = .ok (refNormalize n d)) := by
  refine ⟨by decide, by decide, by decide, fun h => ?_⟩
  have h1 := h INT_MIN (-1) (by decide) (by decide) (by decide)
  exact absurd h1 (by decide)

/-! ## C4: the four operators return canonical values -/

/-- C4 (amended). For every pair of Rationals `a`, `b` whose fields are `int` values (in
particular for canonical ones), with all products formed at 32-bit width: if the
denominator handed to the constructor (`a_den * b_den` for `+`, `-`, `*`, and
`a_den * b_num` for `/` with `b_num ≠ 0`), reduced to 32 bits, is neither `0` nor
`INT_MIN`, the operator returns a canonical value; if it reduces to `0`, the operator
fails with `std::invalid_argument`. -/
theorem C4_operators_canonical (a b : Rational) :
    (i32_mul a.denominator_ b.denominator_ ≠ 0 →
      i32_mul a.denominator_ b.denominator_ ≠ INT_MIN →
        (∃ r, add a b = .ok r ∧ Canonical r) ∧ (∃ r, sub a b = .ok r ∧ Canonical r) ∧
        (∃ r, mul a b = .ok r ∧ Canonical r)) ∧
    (i32_mul a.denominator_ b.denominator_ = 0 →
        add a b = .error .invalid_argument ∧ sub a b = .error .invalid_argument ∧
        mul a b = .error .invalid_argument) ∧
    (b.numerator_ ≠ 0 → i32_mul a.denominator_ b.numerator_ ≠ 0 →
      i32_mul a.denominator_ b.numerator_ ≠ INT_MIN →
        ∃ r, div a b = .ok r ∧ Canonical r) ∧
    (b.numerator_ ≠ 0 → i32_mul a.denominator_ b.numerator_ = 0 →
        div a b = .error .invalid_argument) := by
  refine ⟨fun h0 hmin => ⟨?_, ?_, ?_⟩, fun h0 => ⟨?_, ?_, ?_⟩, fun hb h0 hmin => ?_,
    fun hb h0 => ?_⟩
  · exact ctor_canonical (inRange_wrap32 _) (inRange_wrap32 _) h0 hmin
  · exact ctor_canonical (inRange_wrap32 _) (inRange_wrap32 _) h0 hmin
  · exact ctor_canonical (inRange_wrap32 _) (inRange_wrap32 _) h0 hmin
  · unfold add ctor
    rw [if_pos h0]
  · unfold sub ctor
    rw [if_pos h0]
  · unfold mul ctor
    rw [if_pos h0]
  · unfold div
    rw [if_neg hb]
    exact ctor_canonical (inRange_wrap32 _) (inRange_wrap32 _) h0 hmin
  · unfold div ctor
    rw [if_neg hb, if_pos h0]

/-- Witness for C4 (amended) at `a = 1/2`, `b = -3/4`. -/
theorem C4_operators_canonical_witness :
    ((∃ r, add ⟨1, 2⟩ ⟨-3, 4⟩ = .ok r ∧ Canonical r) ∧
      (∃ r, sub ⟨1, 2⟩ ⟨-3, 4⟩ = .ok r ∧ Canonical r) ∧
      (∃ r, mul ⟨1, 2⟩ ⟨-3, 4⟩ = .ok r ∧ Canonical r)) ∧
    (∃ r, div ⟨1, 2⟩ ⟨-3, 4⟩ = .ok r ∧ Canonical r) :=
  ⟨(C4_operators_canonical ⟨1, 2⟩ ⟨-3, 4⟩).1 (by decide) (by decide),
   (C4_operators_canonical ⟨1, 2⟩ ⟨-3, 4⟩).2.2.1 (by decide) (by decide) (by decide)⟩

/-- C4 as stated fails: for the canonical values `a = b = 1/65536` the 32-bit product of
the denominators is `0` and `a * b` throws `std::invalid_argument`; for `a = 1/32768`,
`b = 1/65536` it is `INT_MIN` and `a * b` stores `-1 / INT_MIN`. -/
theorem C4_counterexample :
    Canonical ⟨1, 65536⟩ ∧ Canonical ⟨1, 32768⟩ ∧
    mul ⟨1, 65536⟩ ⟨1, 65536⟩ = .error .invalid_argument ∧
    mul ⟨1, 32768⟩ ⟨1, 65536⟩ = .ok ⟨-1, INT_MIN⟩ ∧
    ¬ (∀ a b : Rational, Canonical a → Canonical b → ∃ r, mul a b = .ok r ∧ Canonical r) := by
  refine ⟨by decide, by decide, by decide, by decide, fun h => ?_⟩
  obtain ⟨r, hr, _⟩ := h ⟨1, 65536⟩ ⟨1, 65536⟩ (by decide) (by decide)
  have he : mul ⟨1, 65536⟩ ⟨1, 65536⟩ = .error .invalid_argument := by decide
  rw [he] at hr
  exact Except.noConfusion hr

/-! ## C5, C6: exact sum, difference and product -/

/-- C5. For canonical `a`, `b` such that `a_num*b_den`, `b_num*a_den` and `a_den*b_den`
fit in the 32-bit signed range: if the sum of the two cross products fits, `a + b`
returns the canonical form of the pair `(a_num*b_den + b_num*a_den, a_den*b_den)`, which
is the unique canonical representation of the exact rational sum; likewise `a - b` when
the difference fits.  Also `Rational(1,2) + Rational(1,3) == Rational(5,6)` and
`Rational(1,2) - Rational(1,2) == Rational(0)`. -/
theorem C5_add_sub_exact (a b : Rational) (ha : Canonical a) (hb : Canonical b)
    (h1 : InInt32 (a.numerator_ * b.denominator_))
    (h2 : InInt32 (b.numerator_ * a.denominator_))
    (h3 : InInt32 (a.denominator_ * b.denominator_)) :
    (InInt32 (a.numerator_ * b.denominator_ + b.numerator_ * a.denominator_) →
      ∃ r, add a b = .ok r ∧
        r = refNormalize (a.numerator_ * b.denominator_ + b.numerator_ * a.denominator_)
              (a.denominator_ * b.denominator_) ∧
        Canonical r ∧ r.toRat = a.toRat + b.toRat ∧
        ∀ s, Canonical s → s.toRat = a.toRat + b.toRat → s = r) ∧
    (InInt32 (a.numerator_ * b.denominator_ - b.numerator_ * a.denominator_) →
      ∃ r, sub a b = .ok r ∧
        r = refNormalize (a.numerator_ * b.denominator_ - b.numerator_ * a.denominator_)
              (a.denominator_ * b.denominator_) ∧
        Canonical r ∧ r.toRat = a.toRat - b.toRat ∧
        ∀ s, Canonical s → s.toRat = a.toRat - b.toRat → s = r) ∧
    (do let x ← ctor 1 2; let y ← ctor 1 3; add x y) = ctor 5 6 ∧
    (do let x ← ctor 1 2; let y ← ctor 1 2; sub x y) = .ok (ctor1 0) := by
  have hD : 0 < a.denominator_ * b.denominator_ := Int.mul_pos ha.2.2.1 hb.2.2.1
  refine ⟨fun h4 => ?_, fun h4 => ?_, by decide, by decide⟩
  · unfold add
    rw [i32_mul_of_inRange h1, i32_mul_of_inRange h2, i32_mul_of_inRange h3]
    unfold i32_add
    rw [wrap32_of_inRange h4]
    exact ctor_exact_unique h4 h3 (ne_of_gt hD) (Or.inl hD.le) _
      (toRat_add ha.2.2.1 hb.2.2.1)
  · unfold sub
    rw [i32_mul_of_inRange h1, i32_mul_of_inRange h2, i32_mul_of_inRange h3]
    unfold i32_sub
    rw [wrap32_of_inRange h4]
    exact ctor_exact_unique h4 h3 (ne_of_gt hD) (Or.inl hD.le) _
      (toRat_sub ha.2.2.1 hb.2.2.1)

/-- Witness for C5 at `a = 1/2`, `b = 1/3`: the sum is `5/6`, the difference `1/6`. -/
theorem C5_add_sub_exact_witness :
    (∃ r, add ⟨1, 2⟩ ⟨1, 3⟩ = .ok r ∧ r = refNormalize (1 * 3 + 1 * 2) (2 * 3) ∧
        Canonical r ∧ r.toRat = toRat ⟨1, 2⟩ + toRat ⟨1, 3⟩ ∧
        ∀ s, Canonical s → s.toRat = toRat ⟨1, 2⟩ + toRat ⟨1, 3⟩ → s = r) ∧
    (∃ r, sub ⟨1, 2⟩ ⟨1, 3⟩ = .ok r ∧ r = refNormalize (1 * 3 - 1 * 2) (2 * 3) ∧
        Canonical r ∧ r.toRat = toRat ⟨1, 2⟩ - toRat ⟨1, 3⟩ ∧
        ∀ s, Canonical s → s.toRat = toRat ⟨1, 2⟩ - toRat ⟨1, 3⟩ → s = r) :=
  ⟨(C5_add_sub_exact ⟨1, 2⟩ ⟨1, 3⟩ (by decide) (by decide) (by decide) (by decide)
      (by decide)).1 (by decide),
   (C5_add_sub_exact ⟨1, 2⟩ ⟨1, 3⟩ (by decide) (by decide) (by decide) (by decide)
      (by decide)).2.1 (by decide)⟩

/-- C6. For canonical `a`, `b` such that `a_num*b_num` and `a_den*b_den` fit in the
32-bit signed range, `a * b` returns the canonical form of the pair
`(a_num*b_num, a_den*b_den)`, which is the unique canonical representation of the exact
rational product.  Also `Rational(2,3) * Rational(3,4) == Rational(1,2)`. -/
theorem C6_mul_exact (a b : Rational) (ha : Canonical a) (hb : Canonical b)
    (h1 : InInt32 (a.numerator_ * b.numerator_))
    (h2 : InInt32 (a.denominator_ * b.denominator_)) :
    (∃ r, mul a b = .ok r ∧
        r = refNormalize (a.numerator_ * b.numerator_) (a.denominator_ * b.denominator_) ∧
        Canonical r ∧ r.toRat = a.toRat * b.toRat ∧
        ∀ s, Canonical s → s.toRat = a.toRat * b.toRat → s = r) ∧
    (do let x ← ctor 2 3; let y ← ctor 3 4; mul x y) = ctor 1 2 := by
  have hD : 0 < a.denominator_ * b.denominator_ := Int.mul_pos ha.2.2.1 hb.2.2.1
  refine ⟨?_, by decide⟩
  unfold mul
  rw [i32_mul_of_inRange h1, i32_mul_of_inRange h2]
  exact ctor_exact_unique h1 h2 (ne_of_gt hD) (Or.inl hD.le) _
    (toRat_mul ha.2.2.1 hb.2.2.1)

/-- Witness for C6 at `a = 2/3`, `b = 3/4`: the product is `1/2`. -/
theorem C6_mul_exact_witness :
    (∃ r, mul ⟨2, 3⟩ ⟨3, 4⟩ = .ok r ∧ r = refNormalize (2 * 3) (3 * 4) ∧
        Canonical r ∧ r.toRat = toRat ⟨2, 3⟩ * toRat ⟨3, 4⟩ ∧
        ∀ s, Canonical s → s.toRat = toRat ⟨2, 3⟩ * toRat ⟨3, 4⟩ → s = r) ∧
    (do let x ← ctor 2 3; let y ← ctor 3 4; mul x y) = ctor 1 2 :=
  C6_mul_exact ⟨2, 3⟩ ⟨3, 4⟩ (by decide) (by decide) (by decide) (by decide)

/-! ## C7, C8: division -/

/-- C7 (amended). For canonical `a`, `b` with `b_num ≠ 0` such that `N = a_num*b_den` and
`D = a_den*b_num` fit in the 32-bit signed range, `a / b` returns a value, and that value
is the canonical form of the pair `(N, D)` exactly when the sign move is exact
(`b_num > 0`, or `N ≠ INT_MIN` and `D ≠ INT_MIN`, or `N = D = INT_MIN`, or `a_num = 0`).
In those cases it is canonical, so its denominator is positive also for negative `b_num`,
and it is the unique canonical representation of the exact rational quotient. -/
theorem C7_div_exact (a b : Rational) (ha : Canonical a) (hb : Canonical b)
    (hn : b.numerator_ ≠ 0)
    (h1 : InInt32 (a.numerator_ * b.denominator_))
    (h2 : InInt32 (a.denominator_ * b.numerator_)) :
    (∃ r, div a b = .ok r) ∧
    (div a b = .ok (refNormalize (a.numerator_ * b.denominator_)
        (a.denominator_ * b.numerator_))
      ↔ SignMoveExact (a.numerator_ * b.denominator_) (a.denominator_ * b.numerator_)) ∧
    (SignMoveExact (a.numerator_ * b.denominator_) (a.denominator_ * b.numerator_) →
      ∃ r, div a b = .ok r ∧
        r = refNormalize (a.numerator_ * b.denominator_) (a.denominator_ * b.numerator_) ∧
        Canonical r ∧ 0 < r.denominator_ ∧ r.toRat = a.toRat / b.toRat ∧
        ∀ s, Canonical s → s.toRat = a.toRat / b.toRat → s = r) ∧
    (0 < b.numerator_ →
      SignMoveExact (a.numerator_ * b.denominator_) (a.denominator_ * b.numerator_)) := by
  have hD0 : a.denominator_ * b.numerator_ ≠ 0 := mul_ne_zero (ne_of_gt ha.2.2.1) hn
  have hdiv : div a b = ctor (a.numerator_ * b.denominator_)
      (a.denominator_ * b.numerator_) := by
    unfold div
    rw [if_neg hn, i32_mul_of_inRange h1, i32_mul_of_inRange h2]
  rw [hdiv]
  refine ⟨?_, ⟨fun h => ?_, ctor_of_exact h1 h2 hD0⟩, fun hex => ?_, fun hpos => ?_⟩
  · unfold ctor
    rw [if_neg hD0]
    exact ⟨_, rfl⟩
  · by_contra hex
    obtain ⟨r, hr, hne, _⟩ := ctor_of_inexact h1 h2 hex
    rw [h] at hr
    exact hne (Except.ok.inj hr).symm
  · obtain ⟨r, hr1, hr2, hr3, hr4, hr5⟩ := ctor_exact_unique h1 h2 hD0 hex _
      (toRat_div ha.2.2.1 hb.2.2.1 hn)
    exact ⟨r, hr1, hr2, hr3, hr3.2.2.1, hr4, hr5⟩
  · exact Or.inl (Int.mul_pos ha.2.2.1 hpos).le

/-- Witness for C7 (amended) at `a = 1/2`, `b = -3/4`: the quotient is `-2/3`. -/
theorem C7_div_exact_witness :
    ∃ r, div ⟨1, 2⟩ ⟨-3, 4⟩ = .ok r ∧ r = refNormalize (1 * 4) (2 * (-3)) ∧
      Canonical r ∧ 0 < r.denominator_ ∧ r.toRat = toRat ⟨1, 2⟩ / toRat ⟨-3, 4⟩ ∧
      ∀ s, Canonical s → s.toRat = toRat ⟨1, 2⟩ / toRat ⟨-3, 4⟩ → s = r :=
  (C7_div_exact ⟨1, 2⟩ ⟨-3, 4⟩ (by decide) (by decide) (by decide) (by decide)
    (by decide)).2.2.1 (by decide)

/-- C7 as stated fails: for the canonical values `a = 1/1` and `b = INT_MIN/1` both
products fit in the 32-bit range, yet `a / b` stores `-1 / INT_MIN`, whose denominator is
negative. -/
theorem C7_counterexample :
    Canonical ⟨1, 1⟩ ∧ Canonical ⟨INT_MIN, 1⟩ ∧
    InInt32 ((⟨1, 1⟩ : Rational).numerator_ * (⟨INT_MIN, 1⟩ : Rational).denominator_) ∧
    InInt32 ((⟨1, 1⟩ : Rational).denominator_ * (⟨INT_MIN, 1⟩ : Rational).numerator_) ∧
    div ⟨1, 1⟩ ⟨INT_MIN, 1⟩ = .ok ⟨-1, INT_MIN⟩ ∧
    ¬ (0 < (⟨-1, INT_MIN⟩ : Rational).denominator_) ∧
    ¬ Canonical ⟨-1, INT_MIN⟩ := by
  decide

/-- C8 (amended). For all Rationals `a`, `b` (in particular canonical ones), `a / b`
fails with `std::domain_error` exactly when `b_num == 0`; when `b_num != 0` it returns a
value exactly when the 32-bit product `a_den * b_num` is not `0`, and fails with
`std::invalid_argument` when that product is `0`.  `Rational(1,2) / Rational(0)` fails
with `std::domain_error`. -/
theorem C8_div_errors (a b : Rational) :
    (div a b = .error .domain_error ↔ b.numerator_ = 0) ∧
    (b.numerator_ ≠ 0 →
      ((∃ r, div a b = .ok r) ↔ i32_mul a.denominator_ b.numerator_ ≠ 0)) ∧
    (b.numerator_ ≠ 0 → i32_mul a.denominator_ b.numerator_ = 0 →
      div a b = .error .invalid_argument) ∧
    (do let x ← ctor 1 2; div x (ctor1 0)) = .error .domain_error := by
  refine ⟨?_, fun hn => ?_, fun hn h0 => ?_, by decide⟩
  · unfold div ctor
    by_cases hn : b.numerator_ = 0
    · simp [hn]
    · by_cases h0 : i32_mul a.denominator_ b.numerator_ = 0
      · simp [hn, h0]
      · simp [hn, h0]
  · unfold div ctor
    by_cases h0 : i32_mul a.denominator_ b.numerator_ = 0
    · simp [hn, h0]
    · simp [hn, h0]
  · unfold div ctor
    rw [if_neg hn, if_pos h0]

/-- Witness for C8 (amended): `(1/2) / (3/4)` returns a value, and `(1/65536) / (65536/1)`
fails with `std::invalid_argument`. -/
theorem C8_div_errors_witness :
    ((∃ r, div ⟨1, 2⟩ ⟨3, 4⟩ = .ok r) ↔
      i32_mul (⟨1, 2⟩ : Rational).denominator_ (⟨3, 4⟩ : Rational).numerator_ ≠ 0) ∧
    div ⟨1, 65536⟩ ⟨65536, 1⟩ = .error .invalid_argument :=
  ⟨(C8_div_errors ⟨1, 2⟩ ⟨3, 4⟩).2.1 (by decide),
   (C8_div_errors ⟨1, 65536⟩ ⟨65536, 1⟩).2.2.1 (by decide) (by decide)⟩

/-- C8 as stated fails: `a = 1/65536` and `b = 65536/1` are canonical and `b` is not the
zero value, yet `a / b` returns no value: the 32-bit product `65536 * 65536` is `0` and
the constructor throws `std::invalid_argument`. -/
theorem C8_counterexample :
    Canonical ⟨1, 65536⟩ ∧ Canonical ⟨65536, 1⟩ ∧
    (⟨65536, 1⟩ : Rational).numerator_ ≠ 0 ∧
    div ⟨1, 65536⟩ ⟨65536, 1⟩ = .error .invalid_argument ∧
    ¬ (∀ a b : Rational, Canonical a → Canonical b → b.numerator_ ≠ 0 →
        ∃ r, div a b = .ok r) := by
  refine ⟨by decide, by decide, by decide, by decide, fun h => ?_⟩
  obtain ⟨r, hr⟩ := h ⟨1, 65536⟩ ⟨65536, 1⟩ (by decide) (by decide) (by decide)
  have he : div ⟨1, 65536⟩ ⟨65536, 1⟩ = .error .invalid_argument := by decide
  rw [he] at hr
  exact Except.noConfusion hr

/-! ## C9, C10: ordering -/

/-- C9. For all canonical Rationals `a` and `b`, exactly one of `a < b`, `a == b`,
`a > b` holds, where `<` and `>` come from the 64-bit `operator<=>` and `==` is
field-wise equality; and the fields are pairwise equal if and only if
`a_num*b_den == b_num*a_den`.  Also `Rational(1,3) < Rational(1,2)` and
`Rational(-1,2) < Rational(1,2)`. -/
theorem C9_trichotomy (a b : Rational) (ha : Canonical a) (hb : Canonical b) :
    ((lt a b = true ∧ eq a b = false ∧ gt a b = false) ∨
      (lt a b = false ∧ eq a b = true ∧ gt a b = false) ∨
      (lt a b = false ∧ eq a b = false ∧ gt a b = true)) ∧
    ((a.numerator_ = b.numerator_ ∧ a.denominator_ = b.denominator_) ↔
      a.numerator_ * b.denominator_ = b.numerator_ * a.denominator_) ∧
    (do let x ← ctor 1 3; let y ← ctor 1 2; pure (lt x y)) = .ok true ∧
    (do let x ← ctor (-1) 2; let y ← ctor 1 2; pure (lt x y)) = .ok true := by
  have hfields : (a.numerator_ = b.numerator_ ∧ a.denominator_ = b.denominator_) ↔
      a.numerator_ * b.denominator_ = b.numerator_ * a.denominator_ := by
    constructor
    · rintro ⟨h1, h2⟩
      rw [h1, h2]
    · intro h
      have hab : a = b := canonical_ext ha hb ((toRat_eq_iff ha.2.2.1 hb.2.2.1).mpr h)
      rw [hab]
      exact ⟨rfl, rfl⟩
  have hlt := lt_iff_cross ha.1 ha.2.1 hb.1 hb.2.1
  have hgt := gt_iff_cross ha.1 ha.2.1 hb.1 hb.2.1
  have heq := (eq_iff_fields a b).trans hfields
  refine ⟨?_, hfields, by decide, by decide⟩
  rcases lt_trichotomy (a.numerator_ * b.denominator_) (b.numerator_ * a.denominator_)
    with h | h | h
  · refine Or.inl ⟨hlt.mpr h, ?_, ?_⟩
    · rw [Bool.eq_false_iff]
      exact fun hc => absurd (heq.mp hc) (ne_of_lt h)
    · rw [Bool.eq_false_iff]
      exact fun hc => absurd (hgt.mp hc) (not_lt.mpr h.le)
  · refine Or.inr (Or.inl ⟨?_, heq.mpr h, ?_⟩)
    · rw [Bool.eq_false_iff]
      exact fun hc => absurd (hlt.mp hc) (not_lt.mpr h.ge)
    · rw [Bool.eq_false_iff]
      exact fun hc => absurd (hgt.mp hc) (not_lt.mpr h.le)
  · refine Or.inr (Or.inr ⟨?_, ?_, hgt.mpr h⟩)
    · rw [Bool.eq_false_iff]
      exact fun hc => absurd (hlt.mp hc) (not_lt.mpr h.le)
    · rw [Bool.eq_false_iff]
      exact fun hc => absurd (heq.mp hc) (ne_of_gt h)

/-- Witness for C9 at `a = 1/3`, `b = 1/2`. -/
theorem C9_trichotomy_witness :
    ((lt ⟨1, 3⟩ ⟨1, 2⟩ = true ∧ eq ⟨1, 3⟩ ⟨1, 2⟩ = false ∧ gt ⟨1, 3⟩ ⟨1, 2⟩ = false) ∨
      (lt ⟨1, 3⟩ ⟨1, 2⟩ = false ∧ eq ⟨1, 3⟩ ⟨1, 2⟩ = true ∧ gt ⟨1, 3⟩ ⟨1, 2⟩ = false) ∨
      (lt ⟨1, 3⟩ ⟨1, 2⟩ = false ∧ eq ⟨1, 3⟩ ⟨1, 2⟩ = false ∧ gt ⟨1, 3⟩ ⟨1, 2⟩ = true)) :=
  (C9_trichotomy ⟨1, 3⟩ ⟨1, 2⟩ (by decide) (by decide)).1

/-- C10. For all Rationals `a`, `b`, `c` whose fields are any 32-bit signed integers with
positive denominators, the 64-bit cross products of `operator<=>` do not overflow,
`a < b` holds if and only if `a_num*b_den < b_num*a_den` over the integers, if and only if
the rational number `a_num/a_den` is less than `b_num/b_den`; `<` is irreflexive,
antisymmetric (`a < b` excludes `b < a`) and transitive. -/
theorem C10_lt_exact_order (a b c : Rational) (ha : PosDen a) (hb : PosDen b)
    (hc : PosDen c) :
    (i64_mul a.numerator_ b.denominator_ = a.numerator_ * b.denominator_ ∧
      i64_mul b.numerator_ a.denominator_ = b.numerator_ * a.denominator_) ∧
    (lt a b = true ↔ a.numerator_ * b.denominator_ < b.numerator_ * a.denominator_) ∧
    (lt a b = true ↔ a.toRat < b.toRat) ∧
    lt a a = false ∧
    (lt a b = true → lt b a = false) ∧
    (lt a b = true → lt b c = true → lt a c = true) := by
  have hab : lt a b = true ↔ a.toRat < b.toRat :=
    (lt_iff_cross ha.1 ha.2.1 hb.1 hb.2.1).trans (toRat_lt_iff ha.2.2 hb.2.2).symm
  have hba : lt b a = true ↔ b.toRat < a.toRat :=
    (lt_iff_cross hb.1 hb.2.1 ha.1 ha.2.1).trans (toRat_lt_iff hb.2.2 ha.2.2).symm
  have hbc : lt b c = true ↔ b.toRat < c.toRat :=
    (lt_iff_cross hb.1 hb.2.1 hc.1 hc.2.1).trans (toRat_lt_iff hb.2.2 hc.2.2).symm
  have hac : lt a c = true ↔ a.toRat < c.toRat :=
    (lt_iff_cross ha.1 ha.2.1 hc.1 hc.2.1).trans (toRat_lt_iff ha.2.2 hc.2.2).symm
  have haa : lt a a = true ↔ a.toRat < a.toRat :=
    (lt_iff_cross ha.1 ha.2.1 ha.1 ha.2.1).trans (toRat_lt_iff ha.2.2 ha.2.2).symm
  refine ⟨⟨i64_mul_exact ha.1 hb.2.1, i64_mul_exact hb.1 ha.2.1⟩,
    lt_iff_cross ha.1 ha.2.1 hb.1 hb.2.1, hab, ?_, fun h => ?_, fun h1 h2 => ?_⟩
  · rw [Bool.eq_false_iff]
    exact fun h => absurd (haa.mp h) (lt_irrefl _)
  · rw [Bool.eq_false_iff]
    exact fun h2 => absurd (hba.mp h2) (not_lt.mpr (hab.mp h).le)
  · exact hac.mpr (lt_trans (hab.mp h1) (hbc.mp h2))

/-- Witness for C10 at `a = -1/2`, `b = 2/6`, `c = INT_MAX/1`. -/
theorem C10_lt_exact_order_witness :
    (i64_mul (-1) 6 = -1 * 6 ∧ i64_mul 2 2 = 2 * 2) ∧
    (lt ⟨-1, 2⟩ ⟨2, 6⟩ = true ↔ (-1 : Int) * 6 < 2 * 2) ∧
    (lt ⟨-1, 2⟩ ⟨2, 6⟩ = true ↔ toRat ⟨-1, 2⟩ < toRat ⟨2, 6⟩) ∧
    lt ⟨-1, 2⟩ ⟨-1, 2⟩ = false ∧
    (lt ⟨-1, 2⟩ ⟨2, 6⟩ = true → lt ⟨2, 6⟩ ⟨-1, 2⟩ = false) ∧
    (lt ⟨-1, 2⟩ ⟨2, 6⟩ = true → lt ⟨2, 6⟩ ⟨INT_MAX, 1⟩ = true →
      lt ⟨-1, 2⟩ ⟨INT_MAX, 1⟩ = true) :=
  C10_lt_exact_order ⟨-1, 2⟩ ⟨2, 6⟩ ⟨INT_MAX, 1⟩ (by decide) (by decide) (by decide)

/-! ## Inversion and negation -/

theorem i32_neg_of_ne_min {x : Int} (h : InInt32 x) (hm : x ≠ INT_MIN) : i32_neg x = -x := by
  unfold InInt32 at h
  unfold INT_MIN at hm
  unfold i32_neg wrap32
  omega

theorem i32_neg_i32_neg {x : Int} (h : InInt32 x) : i32_neg (i32_neg x) = x := by
  unfold InInt32 at h
  unfold i32_neg wrap32
  omega

theorem inRange_neg {x : Int} (h : InInt32 x) (hm : x ≠ INT_MIN) : InInt32 (-x) := by
  unfold InInt32 at *
  unfold INT_MIN at hm
  omega

/-- On a pair that is already canonical the constructor changes nothing. -/
theorem ctor_of_canonical {n d : Int} (h : Canonical ⟨n, d⟩) : ctor n d = .ok ⟨n, d⟩ := by
  obtain ⟨hn, hd, hpos, hg⟩ := h
  have hg1 : Int.gcd n d = 1 := hg
  rw [ctor_of_pos hn hd hpos, hg1]
  simp

theorem Inv_of_pos {x : Rational} (hx : Canonical x) (hpos : 0 < x.numerator_) :
    Inv x = .ok ⟨x.denominator_, x.numerator_⟩ := by
  obtain ⟨hn, hd, hdpos, hg⟩ := hx
  unfold Inv
  rw [if_neg (ne_of_gt hpos)]
  exact ctor_of_canonical ⟨hd, hn, hpos, by rw [Int.gcd_comm]; exact hg⟩

theorem Inv_of_neg {x : Rational} (hx : Canonical x) (hneg : x.numerator_ < 0)
    (hm : x.numerator_ ≠ INT_MIN) :
    Inv x = .ok ⟨-x.denominator_, -x.numerator_⟩ := by
  obtain ⟨hn, hd, hdpos, hg⟩ := hx
  have hg1 : Int.gcd x.denominator_ x.numerator_ = 1 := by rw [Int.gcd_comm]; exact hg
  unfold Inv
  rw [if_neg (ne_of_lt hneg), ctor_of_neg hd hn hneg hm, hg1,
    i32_neg_of_ne_min hd (inRange_ne_min_of_pos hdpos)]
  simp

theorem Inv_of_min {x : Rational} (hx : Canonical x) (hm : x.numerator_ = INT_MIN) :
    Inv x = .ok ⟨-x.denominator_, INT_MIN⟩ := by
  obtain ⟨hn, hd, hdpos, hg⟩ := hx
  have hg1 : Int.gcd x.denominator_ INT_MIN = 1 := by
    rw [Int.gcd_comm, ← hm]
    exact hg
  have h0 : x.numerator_ ≠ 0 := by rw [hm]; decide
  unfold Inv
  rw [if_neg h0, hm, ctor_of_min hd (ne_of_gt hdpos) (inRange_ne_min_of_pos hdpos), hg1]
  simp

theorem neg_of_canonical {x : Rational} (hx : Canonical x) :
    neg x = .ok ⟨i32_neg x.numerator_, x.denominator_⟩ ∧
      Canonical ⟨i32_neg x.numerator_, x.denominator_⟩ := by
  obtain ⟨hn, hd, hdpos, hg⟩ := hx
  have hc : Canonical ⟨i32_neg x.numerator_, x.denominator_⟩ :=
    ⟨inRange_wrap32 _, hd, hdpos, by rw [gcd_i32_neg hn]; exact hg⟩
  exact ⟨ctor_of_canonical hc, hc⟩

/-! ## C11, C12: inversion and unary minus -/

/-- C11 (amended). For every canonical Rational `x`, `x.Inv()` fails with
`std::logic_error` exactly when `x_num == 0`; otherwise it returns a value with coprime
fields, and that value is the pair `(sign(x_num) * x_den, |x_num|)` exactly when
`x_num ≠ INT_MIN`, in which case it is canonical.  Inverting `-2/3` yields `-3/2`. -/
theorem C11_Inv_spec (x : Rational) (hx : Canonical x) :
    (Inv x = .error .logic_error ↔ x.numerator_ = 0) ∧
    (x.numerator_ ≠ 0 →
      ∃ r, Inv x = .ok r ∧ Int.gcd r.numerator_ r.denominator_ = 1 ∧
        (r = ⟨Int.sign x.numerator_ * x.denominator_, |x.numerator_|⟩
          ↔ x.numerator_ ≠ INT_MIN) ∧
        (x.numerator_ ≠ INT_MIN → Canonical r)) ∧
    (do let y ← ctor (-2) 3; Inv y) = ctor (-3) 2 := by
  have hx2 := hx
  obtain ⟨hn, hd, hdpos, hg⟩ := hx2
  have hgc : Int.gcd x.denominator_ x.numerator_ = 1 := by rw [Int.gcd_comm]; exact hg
  refine ⟨?_, fun h0 => ?_, by decide⟩
  · unfold Inv ctor
    by_cases h0 : x.numerator_ = 0
    · simp [h0]
    · simp [h0]
  · rcases lt_or_gt_of_ne h0 with hneg | hpos
    · by_cases hm : x.numerator_ = INT_MIN
      · refine ⟨_, Inv_of_min hx hm, ?_, ?_, fun h => absurd hm h⟩
        · show Int.gcd (-x.denominator_) INT_MIN = 1
          rw [Int.neg_gcd, ← hm]
          exact hgc
        · constructor
          · intro h
            have h2 : INT_MIN = |x.numerator_| := congrArg Rational.denominator_ h
            rw [hm] at h2
            exact absurd h2 (by decide)
          · intro h
            exact absurd hm h
      · refine ⟨_, Inv_of_neg hx hneg hm, ?_, ?_, fun _ => ?_⟩
        · show Int.gcd (-x.denominator_) (-x.numerator_) = 1
          rw [Int.neg_gcd, Int.gcd_neg]
          exact hgc
        · rw [Int.sign_eq_neg_one_of_neg hneg, abs_of_neg hneg, neg_one_mul]
          exact ⟨fun _ => hm, fun _ => rfl⟩
        · refine ⟨inRange_neg hd (inRange_ne_min_of_pos hdpos), inRange_neg hn hm, ?_, ?_⟩
          · show 0 < -x.numerator_
            omega
          · show Int.gcd (-x.denominator_) (-x.numerator_) = 1
            rw [Int.neg_gcd, Int.gcd_neg]
            exact hgc
    · refine ⟨_, Inv_of_pos hx hpos, hgc, ?_, fun _ => ⟨hd, hn, hpos, hgc⟩⟩
      rw [Int.sign_eq_one_of_pos hpos, abs_of_pos hpos, one_mul]
      exact ⟨fun _ => inRange_ne_min_of_pos hpos, fun _ => rfl⟩

/-- Witness for C11 (amended) at `x = -2/3`. -/
theorem C11_Inv_spec_witness :
    ∃ r, Inv ⟨-2, 3⟩ = .ok r ∧ Int.gcd r.numerator_ r.denominator_ = 1 ∧
      (r = ⟨Int.sign (-2) * 3, |(-2 : Int)|⟩ ↔ (-2 : Int) ≠ INT_MIN) ∧
      ((-2 : Int) ≠ INT_MIN → Canonical r) :=
  (C11_Inv_spec ⟨-2, 3⟩ (by decide)).2.1 (by decide)

/-- C11 as stated fails: `INT_MIN/1` is canonical with nonzero numerator, and its
inverse is stored as `-1 / INT_MIN`, not as `-1 / 2^31`: the denominator is negative. -/
theorem C11_counterexample :
    Canonical ⟨INT_MIN, 1⟩ ∧ Inv ⟨INT_MIN, 1⟩ = .ok ⟨-1, INT_MIN⟩ ∧
    (⟨-1, INT_MIN⟩ : Rational) ≠ ⟨Int.sign INT_MIN * 1, |INT_MIN|⟩ ∧
    ¬ Canonical ⟨-1, INT_MIN⟩ := by
  decide

/-- C12 (amended). For every canonical Rational `x`, unary minus returns the value whose
numerator is `-x_num` formed at `int` width and whose denominator is `x_den` unchanged;
the numerator is the mathematical `-x_num` exactly when `x_num ≠ INT_MIN`; the result is
canonical; and `-(-x) == x`.  Also `-Rational(2,3) == Rational(-2,3)`. -/
theorem C12_neg_spec (x : Rational) (hx : Canonical x) :
    (∃ r, neg x = .ok r ∧ r.denominator_ = x.denominator_ ∧
      r.numerator_ = i32_neg x.numerator_ ∧
      (r.numerator_ = -x.numerator_ ↔ x.numerator_ ≠ INT_MIN) ∧ Canonical r ∧
      ∃ s, neg r = .ok s ∧ eq s x = true) ∧
    (do let y ← ctor 2 3; neg y) = ctor (-2) 3 := by
  obtain ⟨h1, h2⟩ := neg_of_canonical hx
  obtain ⟨h3, _⟩ := neg_of_canonical h2
  refine ⟨⟨_, h1, rfl, rfl, ?_, h2, _, h3, ?_⟩, by decide⟩
  · show i32_neg x.numerator_ = -x.numerator_ ↔ x.numerator_ ≠ INT_MIN
    have hn := hx.1
    unfold InInt32 at hn
    unfold i32_neg wrap32 INT_MIN
    omega
  · rw [eq_iff_fields]
    exact ⟨i32_neg_i32_neg hx.1, rfl⟩

/-- Witness for C12 (amended) at `x = 2/3`. -/
theorem C12_neg_spec_witness :
    ∃ r, neg ⟨2, 3⟩ = .ok r ∧ r.denominator_ = 3 ∧ r.numerator_ = i32_neg 2 ∧
      (r.numerator_ = -2 ↔ (2 : Int) ≠ INT_MIN) ∧ Canonical r ∧
      ∃ s, neg r = .ok s ∧ eq s ⟨2, 3⟩ = true :=
  (C12_neg_spec ⟨2, 3⟩ (by decide)).1

/-- C12 as stated fails: `INT_MIN/1` is canonical and `-(INT_MIN/1)` is `INT_MIN/1`
again, whose numerator is not `-INT_MIN = 2^31`. -/
theorem C12_counterexample :
    Canonical ⟨INT_MIN, 1⟩ ∧ neg ⟨INT_MIN, 1⟩ = .ok ⟨INT_MIN, 1⟩ ∧
    (⟨INT_MIN, 1⟩ : Rational).numerator_ ≠ -(⟨INT_MIN, 1⟩ : Rational).numerator_ := by
  decide

/-! ## C17, C18: symmetry and idempotence of the constructor -/

theorem ediv_inRange {a g : Int} (ha : InInt32 a) (hg : 0 < g) (hdvd : g ∣ a) :
    InInt32 (a / g) := by
  obtain ⟨q, hq⟩ := hdvd
  have hqe : a / g = q := Int.ediv_eq_of_eq_mul_right (ne_of_gt hg) hq
  rw [hqe]
  unfold InInt32 at *
  constructor
  · by_contra hcon
    have : g * q ≤ 1 * q := by
      apply Int.mul_le_mul_of_nonpos_right <;> omega
    omega
  · by_contra hcon
    have : 1 * q ≤ g * q := by
      apply Int.mul_le_mul_of_nonneg_right <;> omega
    omega

theorem ediv_ne_zero_of_dvd {a g : Int} (ha : a ≠ 0) (hdvd : g ∣ a) : a / g ≠ 0 := by
  intro h
  have h2 := Int.eq_mul_of_ediv_eq_right hdvd h
  rw [mul_zero] at h2
  exact ha h2

/-- Swapping the signs of both arguments does not change the constructed value, as long
as the denominator is not `INT_MIN`. -/
theorem ctor_neg_neg {n d : Int} (hn : InInt32 n) (hd : InInt32 d) (h0 : d ≠ 0)
    (hmin : d ≠ INT_MIN) : ctor (i32_neg n) (i32_neg d) = ctor n d := by
  have hnn : InInt32 (i32_neg n) := inRange_wrap32 _
  have hdr : InInt32 (-d) := inRange_neg hd hmin
  rw [i32_neg_of_ne_min hd hmin]
  rcases lt_or_gt_of_ne h0 with hneg | hpos
  · rw [ctor_of_neg hn hd hneg hmin, ctor_of_pos hnn hdr (by omega), gcd_i32_neg hn,
      Int.gcd_neg]
  · have hm2 : -d ≠ INT_MIN := by
      have hd2 := hd
      unfold InInt32 at hd2
      unfold INT_MIN
      omega
    rw [ctor_of_pos hn hd hpos, ctor_of_neg hnn hdr (by omega) hm2, gcd_i32_neg hn,
      Int.gcd_neg, i32_neg_i32_neg hn, neg_neg]

/-- A pair with a negative denominator and a nonzero numerator is never a fixed point of
the constructor. -/
theorem ctor_neg_den_ne {m e : Int} (hm : InInt32 m) (he : InInt32 e) (hneg : e < 0)
    (h0 : m ≠ 0) : ∃ y, ctor m e = .ok y ∧ ¬ (y.numerator_ = m ∧ y.denominator_ = e) := by
  by_cases hmin : e = INT_MIN
  · subst hmin
    by_cases hmm : m = INT_MIN
    · subst hmm
      exact ⟨⟨1, 1⟩, by decide, by decide⟩
    · refine ⟨_, ctor_of_min hm h0 hmm, fun h => ?_⟩
      have h1 : (-m) / (Int.gcd m INT_MIN : Int) = m := h.1
      have hg : (0 : Int) < (Int.gcd m INT_MIN : Int) :=
        Int.ofNat_pos.mpr (Int.gcd_pos_of_ne_zero_left _ h0)
      obtain ⟨q, hq⟩ := (Int.gcd_dvd_left : (Int.gcd m INT_MIN : Int) ∣ m)
      have hq2 : (-m) / (Int.gcd m INT_MIN : Int) = -q :=
        Int.ediv_eq_of_eq_mul_right (ne_of_gt hg) (by rw [mul_neg, ← hq])
      have hq0 : q ≠ 0 := by
        intro hz
        rw [hz, mul_zero] at hq
        exact h0 hq
      have hprod : (Int.gcd m INT_MIN : Int) * q + q = 0 := by
        rw [← hq, ← h1, hq2]
        omega
      have hfac : ((Int.gcd m INT_MIN : Int) + 1) * q = 0 := by
        rw [add_mul, one_mul]
        exact hprod
      rcases mul_eq_zero.mp hfac with h5 | h5
      · omega
      · exact hq0 h5
  · obtain ⟨y, hy, hc⟩ := ctor_canonical hm he (ne_of_lt hneg) hmin
    refine ⟨y, hy, fun h => ?_⟩
    have hpos := hc.2.2.1
    rw [h.2] at hpos
    omega

/-- C17 (amended). For every pair of 32-bit `int` values `(n, d)` with `d ≠ 0`, with the
negations formed at `int` width, both `Rational(n, d)` and `Rational(-n, -d)` return a
value, and the two are equal under `operator==` exactly when `d ≠ INT_MIN`, or `n = 0`,
or `n = INT_MIN`. -/
theorem C17_ctor_neg_neg_eq (n d : Int) (hn : InInt32 n) (hd : InInt32 d) (h0 : d ≠ 0) :
    ∃ r s, ctor n d = .ok r ∧ ctor (i32_neg n) (i32_neg d) = .ok s ∧
      (eq r s = true ↔ (d ≠ INT_MIN ∨ n = 0 ∨ n = INT_MIN)) := by
  by_cases hmin : d = INT_MIN
  · subst hmin
    by_cases hn0 : n = 0
    · subst hn0
      exact ⟨⟨0, 1⟩, ⟨0, 1⟩, by decide, by decide, by decide⟩
    by_cases hnm : n = INT_MIN
    · subst hnm
      exact ⟨⟨1, 1⟩, ⟨1, 1⟩, by decide, by decide, by decide⟩
    have hnr : InInt32 (-n) := inRange_neg hn hnm
    have hn0' : -n ≠ 0 := Int.neg_ne_zero.mpr hn0
    have hnm' : -n ≠ INT_MIN := by
      unfold InInt32 at hn
      unfold INT_MIN
      omega
    have hmm : i32_neg INT_MIN = INT_MIN := by decide
    have hs : ctor (i32_neg n) (i32_neg INT_MIN)
        = .ok ⟨(- -n) / (Int.gcd (-n) INT_MIN : Int),
            INT_MIN / (Int.gcd (-n) INT_MIN : Int)⟩ := by
      rw [hmm, i32_neg_of_ne_min hn hnm]
      exact ctor_of_min hnr hn0' hnm'
    refine ⟨_, _, ctor_of_min hn hn0 hnm, hs, ?_⟩
    · rw [eq_iff_fields]
      constructor
      · rintro ⟨h1, _⟩
        have h2 : (-n) / (Int.gcd n INT_MIN : Int)
            = (- -n) / (Int.gcd (-n) INT_MIN : Int) := h1
        rw [neg_neg, Int.neg_gcd, Int.neg_ediv_of_dvd Int.gcd_dvd_left] at h2
        have h3 : n / (Int.gcd n INT_MIN : Int) ≠ 0 :=
          ediv_ne_zero_of_dvd hn0 Int.gcd_dvd_left
        omega
      · intro h
        rcases h with h | h | h
        · exact absurd rfl h
        · exact absurd h hn0
        · exact absurd h hnm
  · obtain ⟨r, hr, _⟩ := ctor_canonical hn hd h0 hmin
    refine ⟨r, r, hr, by rw [ctor_neg_neg hn hd h0 hmin, hr], ?_⟩
    rw [eq_iff_fields]
    exact ⟨fun _ => Or.inl hmin, fun _ => ⟨rfl, rfl⟩⟩

/-- Witness for C17 (amended) at `(n, d) = (6, -4)`. -/
theorem C17_ctor_neg_neg_eq_witness :
    ∃ r s, ctor 6 (-4) = .ok r ∧ ctor (i32_neg 6) (i32_neg (-4)) = .ok s ∧
      (eq r s = true ↔ ((-4 : Int) ≠ INT_MIN ∨ (6 : Int) = 0 ∨ (6 : Int) = INT_MIN)) :=
  C17_ctor_neg_neg_eq 6 (-4) (by decide) (by decide) (by decide)

/-- C17 as stated fails: `Rational(1, INT_MIN)` is `-1 / INT_MIN`, while
`Rational(-1, -INT_MIN)`, where `-INT_MIN` is `INT_MIN` at `int` width, is
`1 / INT_MIN`. -/
theorem C17_counterexample :
    i32_neg 1 = -1 ∧ i32_neg INT_MIN = INT_MIN ∧
    ctor 1 INT_MIN = .ok ⟨-1, INT_MIN⟩ ∧
    ctor (i32_neg 1) (i32_neg INT_MIN) = .ok ⟨1, INT_MIN⟩ ∧
    eq ⟨-1, INT_MIN⟩ ⟨1, INT_MIN⟩ = false := by
  decide

/-- C18 (amended). For every pair `(n, d)` already in canonical form, `Rational(n, d)`
stores exactly `n` and `d`.  For every pair of 32-bit `int` values with `d ≠ 0`,
re-constructing from the fields of `x = Rational(n, d)` returns a value, and that value
equals `x` under `operator==` exactly when `d ≠ INT_MIN`, or `n = 0`, or `n = INT_MIN`. -/
theorem C18_ctor_idempotent (n d : Int) (hn : InInt32 n) (hd : InInt32 d) (h0 : d ≠ 0) :
    (Canonical ⟨n, d⟩ → ctor n d = .ok ⟨n, d⟩) ∧
    ∃ x y, ctor n d = .ok x ∧ ctor x.numerator_ x.denominator_ = .ok y ∧
      (eq y x = true ↔ (d ≠ INT_MIN ∨ n = 0 ∨ n = INT_MIN)) := by
  refine ⟨ctor_of_canonical, ?_⟩
  by_cases hmin : d = INT_MIN
  · subst hmin
    by_cases hn0 : n = 0
    · subst hn0
      exact ⟨⟨0, 1⟩, ⟨0, 1⟩, by decide, by decide, by decide⟩
    by_cases hnm : n = INT_MIN
    · subst hnm
      exact ⟨⟨1, 1⟩, ⟨1, 1⟩, by decide, by decide, by decide⟩
    have hg : (0 : Int) < (Int.gcd n INT_MIN : Int) :=
      Int.ofNat_pos.mpr (Int.gcd_pos_of_ne_zero_left _ hn0)
    have hx1 : InInt32 ((-n) / (Int.gcd n INT_MIN : Int)) :=
      ediv_inRange (inRange_neg hn hnm) hg (Int.dvd_neg.mpr Int.gcd_dvd_left)
    have hx2 : InInt32 (INT_MIN / (Int.gcd n INT_MIN : Int)) :=
      ediv_inRange (by decide) hg Int.gcd_dvd_right
    have hx3 : INT_MIN / (Int.gcd n INT_MIN : Int) < 0 := Int.ediv_neg' (by decide) hg
    have hx4 : (-n) / (Int.gcd n INT_MIN : Int) ≠ 0 :=
      ediv_ne_zero_of_dvd (Int.neg_ne_zero.mpr hn0) (Int.dvd_neg.mpr Int.gcd_dvd_left)
    obtain ⟨y, hy, hne⟩ := ctor_neg_den_ne hx1 hx2 hx3 hx4
    refine ⟨_, y, ctor_of_min hn hn0 hnm, hy, ?_⟩
    rw [eq_iff_fields]
    constructor
    · intro h
      exact absurd h hne
    · intro h
      rcases h with h | h | h
      · exact absurd rfl h
      · exact absurd h hn0
      · exact absurd h hnm
  · obtain ⟨x, hx, hc⟩ := ctor_canonical hn hd h0 hmin
    refine ⟨x, x, hx, ctor_of_canonical hc, ?_⟩
    rw [eq_iff_fields]
    exact ⟨fun _ => Or.inl hmin, fun _ => ⟨rfl, rfl⟩⟩

/-- Witness for C18 (amended) at `(n, d) = (6, -4)`. -/
theorem C18_ctor_idempotent_witness :
    (Canonical ⟨6, -4⟩ → ctor 6 (-4) = .ok ⟨6, -4⟩) ∧
    ∃ x y, ctor 6 (-4) = .ok x ∧ ctor x.numerator_ x.denominator_ = .ok y ∧
      (eq y x = true ↔ ((-4 : Int) ≠ INT_MIN ∨ (6 : Int) = 0 ∨ (6 : Int) = INT_MIN)) :=
  C18_ctor_idempotent 6 (-4) (by decide) (by decide) (by decide)

/-- C18 as stated fails in its second half: `x = Rational(1, INT_MIN)` is
`-1 / INT_MIN`, and `Rational(-1, INT_MIN)` is `1 / INT_MIN`, which differs from `x`. -/
theorem C18_counterexample :
    ctor 1 INT_MIN = .ok ⟨-1, INT_MIN⟩ ∧
    ctor (⟨-1, INT_MIN⟩ : Rational).numerator_ (⟨-1, INT_MIN⟩ : Rational).denominator_
      = .ok ⟨1, INT_MIN⟩ ∧
    eq ⟨1, INT_MIN⟩ ⟨-1, INT_MIN⟩ = false := by
  decide

/-! ## C19, C20: compound assignment, inversion twice -/

/-- C19. For all Rationals `a`, `b` and each `op` in `+`, `-`, `*`, `/`: executing
`a op= b` leaves `a` equal to the value of `a op b` whenever `a op b` returns a value, and
when `a op b` throws, the same exception leaves `a op= b` and `a` is unchanged; e.g.
`a /= b` with `b` zero throws `std::domain_error` and keeps `a`. -/
theorem C19_compound_assign (a b : Rational) :
    (∀ v, add a b = .ok v → add_assign a b = ⟨v, none⟩) ∧
    (∀ e, add a b = .error e → add_assign a b = ⟨a, some e⟩) ∧
    (∀ v, sub a b = .ok v → sub_assign a b = ⟨v, none⟩) ∧
    (∀ e, sub a b = .error e → sub_assign a b = ⟨a, some e⟩) ∧
    (∀ v, mul a b = .ok v → mul_assign a b = ⟨v, none⟩) ∧
    (∀ e, mul a b = .error e → mul_assign a b = ⟨a, some e⟩) ∧
    (∀ v, div a b = .ok v → div_assign a b = ⟨v, none⟩) ∧
    (∀ e, div a b = .error e → div_assign a b = ⟨a, some e⟩) ∧
    (b.numerator_ = 0 → div_assign a b = ⟨a, some .domain_error⟩) := by
  refine ⟨?_, ?_, ?_, ?_, ?_, ?_, ?_, ?_, ?_⟩
  · intro v h
    unfold add_assign
    rw [h]
    rfl
  · intro e h
    unfold add_assign
    rw [h]
    rfl
  · intro v h
    unfold sub_assign
    rw [h]
    rfl
  · intro e h
    unfold sub_assign
    rw [h]
    rfl
  · intro v h
    unfold mul_assign
    rw [h]
    rfl
  · intro e h
    unfold mul_assign
    rw [h]
    rfl
  · intro v h
    unfold div_assign
    rw [h]
    rfl
  · intro e h
    unfold div_assign
    rw [h]
    rfl
  · intro h
    unfold div_assign div
    rw [if_pos h]
    rfl

/-- Witness for C19: `1/2 += 1/3` leaves `5/6`, `1/65536 *= 1/65536` throws
`std::invalid_argument` and keeps `1/65536`, `1/2 /= 0` throws `std::domain_error` and
keeps `1/2`. -/
theorem C19_compound_assign_witness :
    add_assign ⟨1, 2⟩ ⟨1, 3⟩ = ⟨⟨5, 6⟩, none⟩ ∧
    mul_assign ⟨1, 65536⟩ ⟨1, 65536⟩ = ⟨⟨1, 65536⟩, some .invalid_argument⟩ ∧
    div_assign ⟨1, 2⟩ ⟨0, 1⟩ = ⟨⟨1, 2⟩, some .domain_error⟩ :=
  ⟨(C19_compound_assign ⟨1, 2⟩ ⟨1, 3⟩).1 ⟨5, 6⟩ (by decide),
   (C19_compound_assign ⟨1, 65536⟩ ⟨1, 65536⟩).2.2.2.2.2.1 .invalid_argument (by decide),
   (C19_compound_assign ⟨1, 2⟩ ⟨0, 1⟩).2.2.2.2.2.2.2.2 (by decide)⟩

/-- C20. For every canonical Rational `x` with nonzero numerator, `x.Inv()` returns a
value with a nonzero numerator, so `x.Inv().Inv()` does not fail, and
`x.Inv().Inv() == x`. -/
theorem C20_Inv_involution (x : Rational) (hx : Canonical x) (h0 : x.numerator_ ≠ 0) :
    ∃ y, Inv x = .ok y ∧ y.numerator_ ≠ 0 ∧ ∃ z, Inv y = .ok z ∧ eq z x = true := by
  have hx2 := hx
  obtain ⟨hn, hd, hdpos, hg⟩ := hx2
  have hgc : Int.gcd x.denominator_ x.numerator_ = 1 := by rw [Int.gcd_comm]; exact hg
  have hdm : x.denominator_ ≠ INT_MIN := inRange_ne_min_of_pos hdpos
  have hdn : -x.denominator_ ≠ 0 := Int.neg_ne_zero.mpr (ne_of_gt hdpos)
  have hdr : InInt32 (-x.denominator_) := inRange_neg hd hdm
  have hdm2 : -x.denominator_ ≠ INT_MIN := by
    have hd2 := hd
    unfold InInt32 at hd2
    unfold INT_MIN
    omega
  rcases lt_or_gt_of_ne h0 with hneg | hpos
  · by_cases hm : x.numerator_ = INT_MIN
    · refine ⟨_, Inv_of_min hx hm, hdn, ⟨x.numerator_, x.denominator_⟩, ?_, ?_⟩
      · have hgm : Int.gcd INT_MIN x.denominator_ = 1 := by rw [← hm]; exact hg
        have hi : i32_neg INT_MIN = INT_MIN := by decide
        unfold Inv
        rw [if_neg hdn]
        show ctor INT_MIN (-x.denominator_) = _
        rw [ctor_of_neg (by decide) hdr (by omega) hdm2, Int.gcd_neg, hgm, hi, hm]
        simp
      · rw [eq_iff_fields]
        exact ⟨rfl, rfl⟩
    · have hy : Canonical ⟨-x.denominator_, -x.numerator_⟩ :=
        ⟨hdr, inRange_neg hn hm, by show 0 < -x.numerator_; omega,
          by show Int.gcd (-x.denominator_) (-x.numerator_) = 1
             rw [Int.neg_gcd, Int.gcd_neg]; exact hgc⟩
      refine ⟨_, Inv_of_neg hx hneg hm, hdn, ⟨x.numerator_, x.denominator_⟩, ?_, ?_⟩
      · have h := Inv_of_neg hy (by show -x.denominator_ < 0; omega) hdm2
        simp only [neg_neg] at h
        exact h
      · rw [eq_iff_fields]
        exact ⟨rfl, rfl⟩
  · have hy : Canonical ⟨x.denominator_, x.numerator_⟩ := ⟨hd, hn, hpos, hgc⟩
    refine ⟨_, Inv_of_pos hx hpos, ne_of_gt hdpos, ⟨x.numerator_, x.denominator_⟩,
      Inv_of_pos hy hdpos, ?_⟩
    rw [eq_iff_fields]
    exact ⟨rfl, rfl⟩

/-- Witness for C20 at `x = INT_MIN/3`, whose inverse `-3 / INT_MIN` is not canonical
and still inverts back to `x`. -/
theorem C20_Inv_involution_witness :
    ∃ y, Inv ⟨INT_MIN, 3⟩ = .ok y ∧ y.numerator_ ≠ 0 ∧
      ∃ z, Inv y = .ok z ∧ eq z ⟨INT_MIN, 3⟩ = true :=
  C20_Inv_involution ⟨INT_MIN, 3⟩ (by decide) (by decide)

end Rational

/-! ## Decimal text and the stream operations -/

theorem digitChar_spec :
    ∀ d, d < 10 → (Nat.digitChar d).isDigit = true ∧ digitVal (Nat.digitChar d) = d := by
  decide

theorem isSpace_of_isDigit {c : Char} (h : c.isDigit = true) : isSpace c = false := by
  rw [Bool.eq_false_iff]
  intro hs
  unfold isSpace at hs
  simp only [Bool.or_eq_true, decide_eq_true_eq] at hs
  rcases hs with ((((hs | hs) | hs) | hs) | hs) | hs <;> subst hs <;> exact absurd h (by decide)

theorem not_sign_of_isDigit {c : Char} (h : c.isDigit = true) : ¬ (c = '-' ∨ c = '+') := by
  intro hs
  rcases hs with hs | hs <;> subst hs <;> exact absurd h (by decide)

theorem toDigitsCore_spec (fuel : Nat) :
    ∀ (n : Nat) (ds : List Char), n < fuel →
      ∃ l, Nat.toDigitsCore 10 fuel n ds = l ++ ds ∧ l ≠ [] ∧
        (∀ c ∈ l, c.isDigit = true) ∧
        l.foldl (fun a c => a * 10 + digitVal c) 0 = n := by
  induction fuel with
  | zero =>
    intro n ds h
    exact absurd h (Nat.not_lt_zero n)
  | succ fuel ih =>
    intro n ds h
    have hd := digitChar_spec (n % 10) (Nat.mod_lt n (by decide))
    unfold Nat.toDigitsCore
    by_cases hz : n / 10 = 0
    · refine ⟨[Nat.digitChar (n % 10)], by simp [hz], by simp, ?_, ?_⟩
      · intro c hc
        rw [List.mem_singleton] at hc
        rw [hc]
        exact hd.1
      · simp only [List.foldl_cons, List.foldl_nil, hd.2]
        omega
    · have hlt : n / 10 < fuel := by omega
      obtain ⟨l, hl1, _, hl3, hl4⟩ := ih (n / 10) (Nat.digitChar (n % 10) :: ds) hlt
      refine ⟨l ++ [Nat.digitChar (n % 10)], ?_, by simp, ?_, ?_⟩
      · simp only [hz, if_false, hl1, List.append_assoc, List.singleton_append]
      · intro c hc
        rcases List.mem_append.mp hc with h1 | h1
        · exact hl3 c h1
        · rw [List.mem_singleton] at h1
          rw [h1]
          exact hd.1
      · rw [List.foldl_append, hl4]
        simp only [List.foldl_cons, List.foldl_nil, hd.2]
        omega

theorem readDigits_append (l : List Char) :
    ∀ (rest : List Char) (acc : Nat), (∀ c ∈ l, c.isDigit = true) →
      (∀ c, rest.head? = some c → c.isDigit = false) →
      readDigits (l ++ rest) acc = (l.foldl (fun a c => a * 10 + digitVal c) acc, rest) := by
  induction l with
  | nil =>
    intro rest acc _ hrest
    cases rest with
    | nil => rfl
    | cons c cs =>
      have hc := hrest c rfl
      simp [readDigits, hc]
  | cons d l ih =>
    intro rest acc hl hrest
    have hd : d.isDigit = true := hl d (List.mem_cons_self d l)
    have hl2 : ∀ c ∈ l, c.isDigit = true := fun c hc => hl c (List.mem_cons_of_mem d hc)
    simp only [List.cons_append, readDigits, hd, if_true, List.foldl_cons]
    exact ih rest _ hl2 hrest

/-- The decimal digits of a natural number: a nonempty run of digit characters that
`readDigits` turns back into the number. -/
theorem toDigits_spec (n : Nat) :
    ∃ c cs, Nat.toDigits 10 n = c :: cs ∧ c.isDigit = true ∧
      ∀ rest, (∀ c, rest.head? = some c → c.isDigit = false) →
        readDigits (c :: cs ++ rest) 0 = (n, rest) := by
  obtain ⟨l, hl1, hl2, hl3, hl4⟩ := toDigitsCore_spec (n + 1) n [] (Nat.lt_succ_self n)
  rw [List.append_nil] at hl1
  cases l with
  | nil => exact absurd rfl hl2
  | cons c cs =>
    refine ⟨c, cs, hl1, hl3 c (List.mem_cons_self c cs), fun rest hrest => ?_⟩
    have h := readDigits_append (c :: cs) rest 0 hl3 hrest
    rw [hl4] at h
    exact h

theorem isSpace_minus : isSpace '-' = false := by decide

theorem sentry_skip_of_not_space {c : Char} (cs : List Char) (h : isSpace c = false) :
    sentry ⟨c :: cs, false, false⟩ false = (⟨c :: cs, false, false⟩, true) := by
  simp [sentry, IStream.good, skipSpace, h]

theorem extractInt_intText {n : Int} (hn : InInt32 n) (rest : List Char)
    (hrest : ∀ c, rest.head? = some c → c.isDigit = false) (old : Int) :
    extractInt ⟨intText n ++ rest, false, false⟩ old
      = (⟨rest, rest.isEmpty, false⟩, n) := by
  obtain ⟨c, cs, h1, h2, h3⟩ := toDigits_spec n.natAbs
  have h4 := h3 rest hrest
  rw [List.cons_append] at h4
  have hsp := isSpace_of_isDigit h2
  have hsg := not_sign_of_isDigit h2
  have hr1 : ¬ (n < INT_MIN) := by
    unfold InInt32 at hn
    unfold INT_MIN
    omega
  have hr2 : ¬ (INT_MAX < n) := by
    unfold InInt32 at hn
    unfold INT_MAX
    omega
  by_cases hneg : n < 0
  · have ht : intText n ++ rest = '-' :: c :: (cs ++ rest) := by
      unfold intText
      rw [if_pos hneg, h1]
      rfl
    have hv : |n| = -n := abs_of_neg hneg
    rw [ht]
    unfold extractInt
    rw [sentry_skip_of_not_space _ isSpace_minus]
    simp [dropSign, h2, h4, hv, hr1, hr2]
  · have ht : intText n ++ rest = c :: (cs ++ rest) := by
      unfold intText
      rw [if_neg hneg, h1]
      rfl
    have hv : |n| = n := abs_of_nonneg (not_lt.mp hneg)
    have hc : c ≠ '-' := fun h => hsg (Or.inl h)
    have hc2 : c ≠ '+' := fun h => hsg (Or.inr h)
    rw [ht]
    unfold extractInt
    rw [sentry_skip_of_not_space _ hsp]
    simp [dropSign, h2, h4, hv, hr1, hr2, hc, hc2]

theorem skipSpace_append {w : List Char} (hw : ∀ c ∈ w, isSpace c = true) {c : Char}
    (hc : isSpace c = false) (cs : List Char) : skipSpace (w ++ c :: cs) = c :: cs := by
  induction w with
  | nil => simp [skipSpace, hc]
  | cons a w ih =>
    have ha : isSpace a = true := hw a (List.mem_cons_self a w)
    simp only [List.cons_append, skipSpace, ha, if_true]
    exact ih (fun c hc => hw c (List.mem_cons_of_mem a hc))

theorem sentry_skip {w : List Char} (hw : ∀ c ∈ w, isSpace c = true) {c : Char}
    (hc : isSpace c = false) (cs : List Char) :
    sentry ⟨w ++ c :: cs, false, false⟩ false = (⟨c :: cs, false, false⟩, true) := by
  simp [sentry, IStream.good, skipSpace_append hw hc]

theorem intText_cons (n : Int) : ∃ c cs, intText n = c :: cs ∧ isSpace c = false := by
  obtain ⟨c, cs, h1, h2, _⟩ := toDigits_spec n.natAbs
  unfold intText
  by_cases hneg : n < 0
  · exact ⟨'-', _, by rw [if_pos hneg], isSpace_minus⟩
  · exact ⟨c, cs, by rw [if_neg hneg, h1], isSpace_of_isDigit h2⟩

/-- Reading an `int` skips leading white space first. -/
theorem extractInt_space_intText {w : List Char} (hw : ∀ c ∈ w, isSpace c = true) {n : Int}
    (hn : InInt32 n) (rest : List Char)
    (hrest : ∀ c, rest.head? = some c → c.isDigit = false) (old : Int) :
    extractInt ⟨w ++ (intText n ++ rest), false, false⟩ old
      = (⟨rest, rest.isEmpty, false⟩, n) := by
  have h := extractInt_intText hn rest hrest old
  obtain ⟨c, cs, hc1, hc2⟩ := intText_cons n
  rw [hc1, List.cons_append] at h ⊢
  unfold extractInt at h ⊢
  rw [sentry_skip hw hc2]
  rw [sentry_skip_of_not_space _ hc2] at h
  exact h

theorem ws_good (buf : List Char) :
    ws ⟨buf, false, false⟩ = ⟨skipSpace buf, (skipSpace buf).isEmpty, false⟩ := by
  simp [ws, sentry, IStream.good]

theorem ws_eof : ws ⟨[], true, false⟩ = ⟨[], true, true⟩ := by
  decide

theorem peek_cons (c : Char) (cs : List Char) :
    peek ⟨c :: cs, false, false⟩ = (⟨c :: cs, false, false⟩, some c) := by
  simp [peek, sentry, IStream.good]

theorem peek_eof (f : Bool) : peek ⟨[], true, f⟩ = (⟨[], true, true⟩, none) := by
  cases f <;> decide

theorem extractChar_cons {c : Char} (hc : isSpace c = false) (cs : List Char) (old : Char) :
    extractChar ⟨c :: cs, false, false⟩ old = (⟨cs, false, false⟩, c) := by
  unfold extractChar
  rw [sentry_skip_of_not_space _ hc]

theorem isDigit_of_isSpace {c : Char} (h : isSpace c = true) : c.isDigit = false := by
  rw [Bool.eq_false_iff]
  intro hd
  rw [isSpace_of_isDigit hd] at h
  exact absurd h (by decide)

theorem head_space_slash {w : List Char} (hw : ∀ c ∈ w, isSpace c = true) (t : List Char) :
    ∀ c, (w ++ '/' :: t).head? = some c → c.isDigit = false := by
  intro c hc
  cases w with
  | nil =>
    simp only [List.nil_append, List.head?_cons, Option.some.injEq] at hc
    rw [← hc]
    decide
  | cons a w =>
    simp only [List.cons_append, List.head?_cons, Option.some.injEq] at hc
    rw [← hc]
    exact isDigit_of_isSpace (hw a (List.mem_cons_self a w))

namespace Rational

theorem ctor_one {n : Int} (hn : InInt32 n) : ctor n 1 = .ok ⟨n, 1⟩ :=
  ctor_of_canonical
    ⟨hn, (by decide : InInt32 1), (by decide : (0 : Int) < 1), Int.gcd_one⟩

/-- Parsing `n`, white space, `/`, white space, `d` with `d ≠ 0` hands `(n, d)` to the
constructor and consumes the whole text without setting `failbit`. -/
theorem parse_fraction {n d : Int} (hn : InInt32 n) (hd : InInt32 d) (h0 : d ≠ 0)
    {w1 w2 : List Char} (hw1 : ∀ c ∈ w1, isSpace c = true)
    (hw2 : ∀ c ∈ w2, isSpace c = true) (r0 : Rational) :
    parse (intText n ++ (w1 ++ '/' :: (w2 ++ intText d))) r0
      = (ctor n d).map (fun v => (⟨[], true, false⟩, v)) := by
  have e1 : extractInt ⟨intText n ++ (w1 ++ '/' :: (w2 ++ intText d)), false, false⟩ 0
      = (⟨w1 ++ '/' :: (w2 ++ intText d), false, false⟩, n) := by
    rw [extractInt_intText hn _ (head_space_slash hw1 _) 0]
    simp
  have hws : ws ⟨w1 ++ '/' :: (w2 ++ intText d), false, false⟩
      = ⟨'/' :: (w2 ++ intText d), false, false⟩ := by
    rw [ws_good, skipSpace_append hw1 (by decide)]
    rfl
  have hch := extractChar_cons (by decide : isSpace '/' = false) (w2 ++ intText d)
    (Char.ofNat 0)
  have e2 : extractInt ⟨w2 ++ intText d, false, false⟩ 1 = (⟨[], true, false⟩, d) := by
    have h := extractInt_space_intText hw2 hd [] (by simp) 1
    rw [List.append_nil] at h
    exact h
  simp only [parse, istream_extract, IStream.ofText, e1, hws, peek_cons, hch, e2]
  simp [h0]

theorem peek_ws_not_slash (rest : List Char)
    (hslash : ∀ c, (skipSpace rest).head? = some c → c ≠ '/') :
    (peek (ws ⟨rest, rest.isEmpty, false⟩)).2 ≠ some '/' := by
  cases rest with
  | nil =>
    show (peek (ws ⟨[], true, false⟩)).2 ≠ some '/'
    rw [ws_eof, peek_eof]
    simp
  | cons a rest =>
    show (peek (ws ⟨a :: rest, false, false⟩)).2 ≠ some '/'
    rw [ws_good]
    cases hs : skipSpace (a :: rest) with
    | nil =>
      show (peek ⟨[], true, false⟩).2 ≠ some '/'
      rw [peek_eof]
      simp
    | cons c cs =>
      show (peek ⟨c :: cs, false, false⟩).2 ≠ some '/'
      rw [peek_cons]
      have hc := hslash c (by rw [hs]; rfl)
      simpa using hc

/-- Parsing `n` not followed by `/` assigns `n/1`. -/
theorem parse_integer {n : Int} (hn : InInt32 n) (rest : List Char)
    (hrest : ∀ c, rest.head? = some c → c.isDigit = false)
    (hslash : ∀ c, (skipSpace rest).head? = some c → c ≠ '/') (r0 : Rational) :
    parse (intText n ++ rest) r0
      = .ok ((peek (ws ⟨rest, rest.isEmpty, false⟩)).1, ⟨n, 1⟩) := by
  have e1 := extractInt_intText hn rest hrest 0
  have hp := peek_ws_not_slash rest hslash
  simp only [parse, istream_extract, IStream.ofText, e1]
  simp [hp, ctor_one hn, Except.map]

end Rational

theorem intText_eq_toString (n : Int) : String.mk (intText n) = toString n := by
  cases n with
  | ofNat m =>
    have h : ¬ ((Int.ofNat m) < 0) := not_lt.mpr (Int.ofNat_nonneg m)
    simp only [intText, h, if_false]
    rfl
  | negSucc m =>
    have h : Int.negSucc m < 0 := Int.negSucc_lt_zero m
    simp only [intText, h, if_true]
    rfl

theorem extractInt_unreadable (text : List Char) (old : Int)
    (hbad : ∀ c cs, dropSign (skipSpace text) = c :: cs → c.isDigit = false) :
    (extractInt ⟨text, false, false⟩ old).1.failbit = true := by
  unfold extractInt sentry
  simp only [IStream.good]
  cases hs : skipSpace text with
  | nil => simp
  | cons a as =>
    rw [hs] at hbad
    cases hd : dropSign (a :: as) with
    | nil => simp [hd]
    | cons c cs =>
      have hc := hbad c cs hd
      simp [hd, hc]

namespace Rational

theorem extract_never_throws (s : IStream) (r : Rational) :
    ∃ s1 r1, istream_extract s r = .ok (s1, r1) := by
  unfold istream_extract
  simp only []
  split
  · exact ⟨_, _, rfl⟩
  · split
    · split
      · exact ⟨_, _, rfl⟩
      · rename_i h
        push_neg at h
        unfold ctor
        rw [if_neg h.2]
        exact ⟨_, _, rfl⟩
    · unfold ctor
      rw [if_neg (by decide)]
      exact ⟨_, _, rfl⟩

theorem extract_fail_num (s : IStream) (r : Rational)
    (h : (extractInt s 0).1.failbit = true) :
    istream_extract s r = .ok ((extractInt s 0).1, r) := by
  unfold istream_extract
  simp only [h, if_true]

theorem extract_fail_den (s : IStream) (r : Rational)
    (h1 : (extractInt s 0).1.failbit = false)
    (h2 : (peek (ws (extractInt s 0).1)).2 = some '/')
    (h3 : (extractInt (extractChar (peek (ws (extractInt s 0).1)).1 (Char.ofNat 0)).1 1).1.failbit
            = true ∨
          (extractInt (extractChar (peek (ws (extractInt s 0).1)).1 (Char.ofNat 0)).1 1).2 = 0) :
    ∃ s1, istream_extract s r = .ok (s1, r) ∧ s1.failbit = true := by
  unfold istream_extract
  simp only [h1, h2, h3, if_true]
  exact ⟨_, rfl, rfl⟩

/-- The stream after the numerator, optional white space and the slash have been read. -/
theorem after_slash {n : Int} (hn : InInt32 n) {w1 : List Char}
    (hw1 : ∀ c ∈ w1, isSpace c = true) (t : List Char) :
    (extractInt ⟨intText n ++ (w1 ++ '/' :: t), false, false⟩ 0).1.failbit = false ∧
    (peek (ws (extractInt ⟨intText n ++ (w1 ++ '/' :: t), false, false⟩ 0).1)).2
      = some '/' ∧
    (extractChar (peek (ws (extractInt ⟨intText n ++ (w1 ++ '/' :: t), false, false⟩ 0).1)).1
      (Char.ofNat 0)).1 = ⟨t, false, false⟩ := by
  have e1 : extractInt ⟨intText n ++ (w1 ++ '/' :: t), false, false⟩ 0
      = (⟨w1 ++ '/' :: t, false, false⟩, n) := by
    rw [extractInt_intText hn _ (head_space_slash hw1 _) 0]
    simp
  have hws : ws ⟨w1 ++ '/' :: t, false, false⟩ = ⟨'/' :: t, false, false⟩ := by
    rw [ws_good, skipSpace_append hw1 (by decide)]
    rfl
  have hch := extractChar_cons (by decide : isSpace '/' = false) t (Char.ofNat 0)
  simp only [e1, hws, peek_cons, hch]
  exact ⟨trivial, trivial, trivial⟩

end Rational

namespace Rational

theorem ctor_canonical_iff {n d : Int} (hn : InInt32 n) (hd : InInt32 d) (h0 : d ≠ 0) :
    ∃ r, ctor n d = .ok r ∧ (Canonical r ↔ (d ≠ INT_MIN ∨ n = 0 ∨ n = INT_MIN)) := by
  by_cases hmin : d = INT_MIN
  · subst hmin
    by_cases hn0 : n = 0
    · subst hn0
      exact ⟨⟨0, 1⟩, by decide, by decide⟩
    by_cases hnm : n = INT_MIN
    · subst hnm
      exact ⟨⟨1, 1⟩, by decide, by decide⟩
    have hg : (0 : Int) < (Int.gcd n INT_MIN : Int) :=
      Int.ofNat_pos.mpr (Int.gcd_pos_of_ne_zero_left _ hn0)
    have hneg : INT_MIN / (Int.gcd n INT_MIN : Int) < 0 := Int.ediv_neg' (by decide) hg
    refine ⟨_, ctor_of_min hn hn0 hnm, fun h => ?_, fun h => ?_⟩
    · have hpos : 0 < INT_MIN / (Int.gcd n INT_MIN : Int) := h.2.2.1
      omega
    · rcases h with h | h | h
      · exact absurd rfl h
      · exact absurd h hn0
      · exact absurd h hnm
  · obtain ⟨r, hr, hc⟩ := ctor_canonical hn hd h0 hmin
    exact ⟨r, hr, fun _ => Or.inl hmin, fun _ => hc⟩

/-! ## C13, C14: parsing what was written -/

/-- C13 (defect of the code). The round trip does not succeed for integral values: for
every canonical Rational `x` and every previous value of the destination, `operator>>` on
the text written by `operator<<` raises nothing, consumes the whole text and assigns the
destination the value `x`; when `x` is not integral (text `<n> / <d>`) the stream is left
without `failbit`, but when `x` is integral (text `<n>`) the stream is left with `failbit`
set, that is, marked as a failed parse: the text ends right after the integer, so
`is >> std::ws` and `is.peek()` (lines 104-105) run on a stream whose `eofbit` is set.
At `x = Rational(3)`: the text is `3`, the destination becomes `3/1` and the stream ends
with `eofbit` and `failbit`. -/
theorem C13_round_trip_failbit (x : Rational) (hx : Canonical x) (r0 : Rational) :
    (x.denominator_ = 1 → format x = intText x.numerator_) ∧
    (x.denominator_ ≠ 1 →
      format x = intText x.numerator_ ++ " / ".toList ++ intText x.denominator_) ∧
    parse (format x) r0 = .ok (⟨[], true, decide (x.denominator_ = 1)⟩, x) ∧
    (x.denominator_ = 1 → ∃ s, parse (format x) r0 = .ok (s, x) ∧ s.failbit = true) ∧
    (x.denominator_ ≠ 1 → ∃ s, parse (format x) r0 = .ok (s, x) ∧ s.failbit = false) ∧
    format ⟨3, 1⟩ = "3".toList ∧
    parse "3".toList r0 = .ok (⟨[], true, true⟩, ⟨3, 1⟩) ∧
    parse "1 / 2".toList r0 = (ctor 1 2).map (fun v => (⟨[], true, false⟩, v)) := by
  have hmain : parse (format x) r0
      = .ok (⟨[], true, decide (x.denominator_ = 1)⟩, x) → _ := fun h =>
    (⟨h, fun h1 => ⟨_, h, by simp [h1]⟩, fun h1 => ⟨_, h, by simp [h1]⟩⟩ :
      parse (format x) r0 = .ok (⟨[], true, decide (x.denominator_ = 1)⟩, x) ∧
      (x.denominator_ = 1 → ∃ s, parse (format x) r0 = .ok (s, x) ∧ s.failbit = true) ∧
      (x.denominator_ ≠ 1 → ∃ s, parse (format x) r0 = .ok (s, x) ∧ s.failbit = false))
  have hthree : parse "3".toList r0 = .ok (⟨[], true, true⟩, ⟨3, 1⟩) := rfl
  have hhalf : parse "1 / 2".toList r0
      = (ctor 1 2).map (fun v => (⟨[], true, false⟩, v)) := rfl
  suffices hs : (x.denominator_ = 1 → format x = intText x.numerator_) ∧
      (x.denominator_ ≠ 1 →
        format x = intText x.numerator_ ++ " / ".toList ++ intText x.denominator_) ∧
      parse (format x) r0 = .ok (⟨[], true, decide (x.denominator_ = 1)⟩, x) from
    ⟨hs.1, hs.2.1, (hmain hs.2.2).1, (hmain hs.2.2).2.1, (hmain hs.2.2).2.2, by decide,
      hthree, hhalf⟩
  have hf1 : x.denominator_ = 1 → format x = intText x.numerator_ := by
    intro h
    simp [format, ostream_insert, h]
  have hf2 : x.denominator_ ≠ 1 →
      format x = intText x.numerator_ ++ " / ".toList ++ intText x.denominator_ := by
    intro h
    simp [format, ostream_insert, h]
  refine ⟨hf1, hf2, ?_⟩
  by_cases h1 : x.denominator_ = 1
  · have hxe : x = ⟨x.numerator_, 1⟩ := by
      cases x
      simp only [mk.injEq, true_and]
      exact h1
    have hp := parse_integer hx.1 [] (by simp) (by simp [skipSpace]) r0
    rw [List.append_nil] at hp
    rw [hf1 h1, hp, ← hxe]
    simp only [h1, decide_True]
    have hs : (peek (ws ⟨[], ([] : List Char).isEmpty, false⟩)).1 = ⟨[], true, true⟩ := by
      decide
    rw [hs]
  · have hc : ctor x.numerator_ x.denominator_ = .ok x := by
      exact @ctor_of_canonical x.numerator_ x.denominator_ hx
    have hp := @parse_fraction x.numerator_ x.denominator_ hx.1 hx.2.1
      (ne_of_gt hx.2.2.1) [' '] [' '] (by decide) (by decide) r0
    have htxt : format x
        = intText x.numerator_ ++ ([' '] ++ '/' :: ([' '] ++ intText x.denominator_)) := by
      rw [hf2 h1]
      simp
    rw [htxt, hp, hc]
    simp [h1, Except.map]

/-- Witness for C13 at the integral `x = -3/1`, where the stream ends failed, and at
`x = 5/6`, where it does not. -/
theorem C13_round_trip_failbit_witness :
    (∃ s, parse (format ⟨-3, 1⟩) ⟨7, 9⟩ = .ok (s, ⟨-3, 1⟩) ∧ s.failbit = true) ∧
    (∃ s, parse (format ⟨5, 6⟩) ⟨7, 9⟩ = .ok (s, ⟨5, 6⟩) ∧ s.failbit = false) :=
  ⟨(C13_round_trip_failbit ⟨-3, 1⟩ (by decide) ⟨7, 9⟩).2.2.2.1 (by decide),
   (C13_round_trip_failbit ⟨5, 6⟩ (by decide) ⟨7, 9⟩).2.2.2.2.1 (by decide)⟩

/-- C14 (amended). For all 32-bit `int` values `n` and `d` with `d ≠ 0`, parsing the text
made of the decimal `n`, optional white space, `/`, optional white space and the decimal
`d` assigns the destination the value `Rational(n, d)` and leaves the stream without
`failbit`; that value is canonical exactly when `d ≠ INT_MIN`, or `n = 0`, or
`n = INT_MIN`.  Parsing the decimal `n` followed by a text that does not start with a
digit and whose first character after white space is not `/` assigns `n/1`.  Also
`parse("4/8") == Rational(1,2)`. -/
theorem C14_parse_success (n d : Int) (hn : InInt32 n) (hd : InInt32 d) (h0 : d ≠ 0)
    (w1 w2 : List Char) (hw1 : ∀ c ∈ w1, isSpace c = true)
    (hw2 : ∀ c ∈ w2, isSpace c = true) (r0 : Rational) :
    (∃ v, ctor n d = .ok v ∧
      parse (intText n ++ w1 ++ ['/'] ++ w2 ++ intText d) r0
        = .ok (⟨[], true, false⟩, v) ∧
      (Canonical v ↔ (d ≠ INT_MIN ∨ n = 0 ∨ n = INT_MIN))) ∧
    (∀ rest : List Char, (∀ c, rest.head? = some c → c.isDigit = false) →
      (∀ c, (skipSpace rest).head? = some c → c ≠ '/') →
      ∃ s, parse (intText n ++ rest) r0 = .ok (s, ⟨n, 1⟩)) ∧
    parse "4/8".toList r0 = (ctor 1 2).map (fun v => (⟨[], true, false⟩, v)) := by
  refine ⟨?_, fun rest h1 h2 => ⟨_, parse_integer hn rest h1 h2 r0⟩, ?_⟩
  · obtain ⟨v, hv, hc⟩ := ctor_canonical_iff hn hd h0
    refine ⟨v, hv, ?_, hc⟩
    have htxt : intText n ++ w1 ++ ['/'] ++ w2 ++ intText d
        = intText n ++ (w1 ++ '/' :: (w2 ++ intText d)) := by
      simp
    rw [htxt, parse_fraction hn hd h0 hw1 hw2 r0, hv]
    rfl
  · have hp := @parse_fraction 4 8 (by decide) (by decide) (by decide) [] []
      (by simp) (by simp) r0
    have htxt : "4/8".toList = intText 4 ++ ([] ++ '/' :: ([] ++ intText 8)) := by decide
    have hc : ctor 4 8 = ctor 1 2 := by decide
    rw [htxt, hp, hc]

/-- Witness for C14 (amended) on the text `-6 /\t4`, which parses to `-3/2`. -/
theorem C14_parse_success_witness :
    ∃ v, ctor (-6) 4 = .ok v ∧
      parse (intText (-6) ++ [' '] ++ ['/'] ++ ['\t'] ++ intText 4) ⟨7, 9⟩
        = .ok (⟨[], true, false⟩, v) ∧
      (Canonical v ↔ ((4 : Int) ≠ INT_MIN ∨ (-6 : Int) = 0 ∨ (-6 : Int) = INT_MIN)) :=
  (C14_parse_success (-6) 4 (by decide) (by decide) (by decide) [' '] ['\t'] (by decide)
    (by decide) ⟨7, 9⟩).1

/-- C14 as stated fails: the text made of `1`, a slash and `-2147483648` parses without
failure and assigns
`Rational(1, INT_MIN)`, which is `-1 / INT_MIN` and not canonical. -/
theorem C14_counterexample :
    InInt32 1 ∧ InInt32 INT_MIN ∧ INT_MIN ≠ 0 ∧
    intText 1 ++ [] ++ ['/'] ++ [] ++ intText INT_MIN = "1/-2147483648".toList ∧
    parse "1/-2147483648".toList ⟨0, 1⟩ = .ok (⟨[], true, false⟩, ⟨-1, INT_MIN⟩) ∧
    ¬ Canonical ⟨-1, INT_MIN⟩ := by
  decide

/-! ## C15, C16: parse failure, formatting -/

/-- C15. For every stream state and every destination value `r`, `operator>>` raises no
exception; if no leading integer can be read (`is >> num` fails), or if a `/` follows the
numerator and the denominator cannot be read or reads as `0`, the stream is left with
`failbit` set and the destination is still `r`.  In terms of the text: a text whose first
character after white space and an optional sign is not a digit fails; so does the decimal
`n`, optional white space, `/` followed by such a text, or by white space and the decimal
`0`.  Parsing `1/0` fails and leaves the destination unchanged. -/
theorem C15_parse_failure (s : IStream) (r : Rational) :
    (∃ s1 r1, istream_extract s r = .ok (s1, r1)) ∧
    ((extractInt s 0).1.failbit = true →
      ∃ s1, istream_extract s r = .ok (s1, r) ∧ s1.failbit = true) ∧
    ((extractInt s 0).1.failbit = false →
      (peek (ws (extractInt s 0).1)).2 = some '/' →
      ((extractInt (extractChar (peek (ws (extractInt s 0).1)).1 (Char.ofNat 0)).1 1).1.failbit
          = true ∨
        (extractInt (extractChar (peek (ws (extractInt s 0).1)).1 (Char.ofNat 0)).1 1).2
          = 0) →
      ∃ s1, istream_extract s r = .ok (s1, r) ∧ s1.failbit = true) ∧
    (∀ text : List Char,
      (∀ c cs, dropSign (skipSpace text) = c :: cs → c.isDigit = false) →
      ∃ s1, parse text r = .ok (s1, r) ∧ s1.failbit = true) ∧
    (∀ (n : Int) (w1 t : List Char), InInt32 n → (∀ c ∈ w1, isSpace c = true) →
      (∀ c cs, dropSign (skipSpace t) = c :: cs → c.isDigit = false) →
      ∃ s1, parse (intText n ++ w1 ++ ['/'] ++ t) r = .ok (s1, r) ∧ s1.failbit = true) ∧
    (∀ (n : Int) (w1 w2 t : List Char), InInt32 n → (∀ c ∈ w1, isSpace c = true) →
      (∀ c ∈ w2, isSpace c = true) → (∀ c, t.head? = some c → c.isDigit = false) →
      ∃ s1, parse (intText n ++ w1 ++ ['/'] ++ w2 ++ intText 0 ++ t) r = .ok (s1, r) ∧
        s1.failbit = true) ∧
    parse "1/0".toList r = .ok (⟨[], true, true⟩, r) ∧
    parse "abc".toList r = .ok (⟨"abc".toList, false, true⟩, r) ∧
    parse "1/x".toList r = .ok (⟨"x".toList, false, true⟩, r) ∧
    parse [] r = .ok (⟨[], true, true⟩, r) := by
  refine ⟨extract_never_throws s r, fun h => ⟨_, extract_fail_num s r h, h⟩,
    extract_fail_den s r, fun text hbad => ?_, fun n w1 t hn hw1 hbad => ?_,
    fun n w1 w2 t hn hw1 hw2 ht => ?_, rfl, rfl, rfl, rfl⟩
  · have h := extractInt_unreadable text 0 hbad
    exact ⟨_, extract_fail_num _ r h, h⟩
  · have htxt : intText n ++ w1 ++ ['/'] ++ t = intText n ++ (w1 ++ '/' :: t) := by simp
    obtain ⟨h1, h2, h3⟩ := after_slash hn hw1 t
    rw [htxt]
    unfold parse IStream.ofText
    refine extract_fail_den _ r h1 h2 (Or.inl ?_)
    rw [h3]
    exact extractInt_unreadable t 1 hbad
  · have htxt : intText n ++ w1 ++ ['/'] ++ w2 ++ intText 0 ++ t
        = intText n ++ (w1 ++ '/' :: (w2 ++ (intText 0 ++ t))) := by simp
    obtain ⟨h1, h2, h3⟩ := after_slash hn hw1 (w2 ++ (intText 0 ++ t))
    rw [htxt]
    unfold parse IStream.ofText
    refine extract_fail_den _ r h1 h2 (Or.inr ?_)
    rw [h3, extractInt_space_intText hw2 (by decide) t ht 1]

/-- Witness for C15: a stream that already failed, and the texts `-x` and `7 / 0`. -/
theorem C15_parse_failure_witness :
    (∃ s1, istream_extract ⟨"1/2".toList, false, true⟩ ⟨7, 9⟩ = .ok (s1, ⟨7, 9⟩) ∧
      s1.failbit = true) ∧
    (∃ s1, parse "-x".toList ⟨7, 9⟩ = .ok (s1, ⟨7, 9⟩) ∧ s1.failbit = true) ∧
    (∃ s1, parse (intText 7 ++ [' '] ++ ['/'] ++ [' '] ++ intText 0 ++ []) ⟨7, 9⟩
        = .ok (s1, ⟨7, 9⟩) ∧ s1.failbit = true) :=
  ⟨(C15_parse_failure ⟨"1/2".toList, false, true⟩ ⟨7, 9⟩).2.1 (by decide),
   (C15_parse_failure ⟨[], false, false⟩ ⟨7, 9⟩).2.2.2.1 "-x".toList
     (fun c cs h => by
       have h2 : ['x'] = c :: cs := h
       cases h2
       decide),
   (C15_parse_failure ⟨[], false, false⟩ ⟨7, 9⟩).2.2.2.2.2.1 7 [' '] [' '] [] (by decide)
     (by decide) (by decide) (by decide)⟩

/-- C16. For every Rational `r`, `operator<<` appends to the stream exactly the decimal
text of the numerator when `denominator == 1`, and otherwise exactly the decimal text of
the numerator, one space, `/`, one space and the decimal text of the denominator; the
decimal text of an integer is its usual rendering (`toString`).  Also
`format(Rational(3,1)) == "3"` and `format(Rational(2,4)) == "1 / 2"`. -/
theorem C16_format (r : Rational) (os : List Char) :
    (r.denominator_ = 1 → ostream_insert os r = os ++ (toString r.numerator_).toList) ∧
    (r.denominator_ ≠ 1 →
      ostream_insert os r
        = os ++ (toString r.numerator_).toList ++ [' ', '/', ' ']
            ++ (toString r.denominator_).toList) ∧
    (ctor 3 1).map format = .ok "3".toList ∧
    (ctor 2 4).map format = .ok "1 / 2".toList := by
  have ht : ∀ n : Int, (toString n).toList = intText n := by
    intro n
    rw [← intText_eq_toString]
    rfl
  refine ⟨fun h => ?_, fun h => ?_, by decide, by decide⟩
  · rw [ht]
    simp [ostream_insert, h]
  · rw [ht, ht]
    simp [ostream_insert, h]

/-- Witness for C16 at `r = 3/1` and `r = -1/2`. -/
theorem C16_format_witness :
    ostream_insert [] ⟨3, 1⟩ = [] ++ (toString (3 : Int)).toList ∧
    ostream_insert [] ⟨-1, 2⟩
      = [] ++ (toString (-1 : Int)).toList ++ [' ', '/', ' '] ++ (toString (2 : Int)).toList :=
  ⟨(C16_format ⟨3, 1⟩ []).1 (by decide), (C16_format ⟨-1, 2⟩ []).2.1 (by decide)⟩

end Rational
